import Mathlib

/-!
Verification of the Edge-Analysis data normalization and classification
pipeline.

This file gives a shallow embedding, in Lean 4, of the core of the
Edge-Analysis trading-journal analytics repository:

* the field parsers of `src/edge_analysis/core/parsing.py`
  (`infer_instrument`, `normalize_session`, `parse_closed_rr`,
  `normalize_result_label`, `classify_outcome_from_fields`,
  `normalize_account_group`, `build_duration_bin`, `build_models_list`);
* the aggregation engine of `src/core/metrics.py`
  (`percentages_sum_to_100`, `win_be_loss_counts`, `group_win_rates`);
* the template adapter of `src/edge_analysis/data/template_adapter.py`
  (`_load_maps`, `_score`, `_choose`, `adapt_df`);
* the dataset builder `load_live_df` of `data_loading.py`.

Modelling conventions, used throughout:

* Python scalar cell values are modelled by the inductive type `Val`:
  `Val.none` models a missing value (Python `None` / numpy `nan`; the
  pipeline's missing values are `nan`, so `pyStr Val.none = "nan"`,
  matching `Series.astype(str)` on missing data);
  `Val.num` models `int`/`float` values by exact rationals (finite floats
  only); `Val.str`, `Val.bool`, `Val.list` and `Val.date` model the other
  cell shapes produced by the data source.
* Python floats are modelled by exact rationals.  A float-valued result
  that can be `nan` is modelled by `PyF` (`fin q` or `nan`).  Non-finite
  parses (`float("inf")`) are outside the model of the float grammar.
* Python strings are modelled by `List Char`; `.strip()`, `.lower()`,
  `.title()` and the regex patterns of the source are implemented
  character by character over ASCII (the source's patterns are ASCII).
  The regexes used by the source are simple enough that greedy
  backtracking-free matching coincides with Python's leftmost-greedy
  semantics; this is argued at each matcher.
* A Python function that can raise on some input is embedded with an
  `Except Unit` result; `.error ()` marks the raising executions.
  `pd.isna(v)` applied to a list evaluates the truth value of an
  elementwise array, which raises for lists of length other than one;
  `pdIsna` reflects this.
-/

/-! ## Python characters and strings -/

/-- Whitespace for Python `str.strip` / regex `\s` (ASCII subset). -/
def pyIsSpace (c : Char) : Bool :=
  c = ' ' || c = '\t' || c = '\n' || c = '\r' || c = '\x0b' || c = '\x0c'

/-- Word characters for regex `\w` / `\b` boundaries (ASCII subset). -/
def isWordChar (c : Char) : Bool :=
  c.isAlphanum || c = '_'

/-- Python `str.lower` on one character (ASCII). -/
def pyLowerChar (c : Char) : Char := c.toLower

/-- Python `str.lower`. -/
def pyLower (l : List Char) : List Char := l.map pyLowerChar

/-- Drop trailing characters satisfying `p`. -/
def stripEnd (l : List Char) : List Char :=
  ((l.reverse).dropWhile pyIsSpace).reverse

/-- Python `str.strip()` (no arguments): drop leading and trailing whitespace. -/
def pstrip (l : List Char) : List Char :=
  stripEnd (l.dropWhile pyIsSpace)

/-- Python `str.title`: a cased character is uppercased when the preceding
character is not a letter, lowercased otherwise. -/
def pyTitleAux : Bool → List Char → List Char
  | _, [] => []
  | prevAlpha, c :: t =>
      (if c.isAlpha then (if prevAlpha then c.toLower else c.toUpper) else c)
        :: pyTitleAux c.isAlpha t

/-- Python `str.title`. -/
def pyTitle (l : List Char) : List Char := pyTitleAux false l

/-- Substring containment: `pat in s` / an unanchored regex literal match. -/
def containsSub (pat : List Char) : List Char → Bool
  | [] => pat.isEmpty
  | l@(_ :: t) => pat.isPrefixOf l || containsSub pat t

/-- Maximal runs of word characters of a string, in order.  A regex
`\b w \b` match of a bare word `w` is exactly membership of `w` among
these runs. -/
def wordsAux : List Char → List Char → List (List Char)
  | [], acc => if acc.isEmpty then [] else [acc.reverse]
  | c :: t, acc =>
      if isWordChar c then wordsAux t (c :: acc)
      else (if acc.isEmpty then [] else [acc.reverse]) ++ wordsAux t []

/-- The list of maximal word-character runs of a string. -/
def words (l : List Char) : List (List Char) := wordsAux l []

/-- Regex word-boundary match of a bare word: `re.search(r"\b w \b", s)`. -/
def hasWord (w : List Char) (l : List Char) : Bool :=
  (words l).contains w

/-- Split on every `;` or `,` occurrence, like `re.split(r"[;,]", s)`. -/
def splitSemiCommaAux : List Char → List Char → List (List Char)
  | [], acc => [acc.reverse]
  | c :: t, acc =>
      if c = ';' || c = ',' then acc.reverse :: splitSemiCommaAux t []
      else splitSemiCommaAux t (c :: acc)

/-- Split a string on `;` and `,` separators. -/
def splitSemiComma (l : List Char) : List (List Char) := splitSemiCommaAux l []

/-- Numeric value of a list of decimal digit characters, most significant
first (the usual positional reading). -/
def digitsValN (ds : List Char) : ℕ :=
  ds.foldl (fun a c => 10 * a + (c.toNat - 48)) 0

/-- Value of a fractional digit string: `digits / 10 ^ length`. -/
def fracValQ (ds : List Char) : ℚ :=
  (digitsValN ds : ℚ) / (10 : ℚ) ^ ds.length

/-! ## Python scalar values -/

/-- Model of a raw Python cell value.  `Val.none` stands for a missing
value (`None` / numpy `nan`); `Val.date` for a parsed timestamp
(year, month, day). -/
inductive Val where
  | none : Val
  | num (q : ℚ) : Val
  | str (s : String) : Val
  | bool (b : Bool) : Val
  | list (l : List String) : Val
  | date (y m d : ℕ) : Val
deriving DecidableEq, Repr

/-- Model of a Python float-or-nan result. -/
inductive PyF where
  | nan : PyF
  | fin (q : ℚ) : PyF
deriving DecidableEq, Repr

/-- Left-pad a numeral string with zeros to width 2. -/
def pad2 (n : ℕ) : String :=
  if n < 10 then "0" ++ toString n else toString n

/-- Model of Python `str(v)` on a cell value.  Missing values stringify to
"nan" (the pipeline's missing values are numpy `nan`; `str(nan) = "nan"`,
and this is also what `Series.astype(str)` produces for them).  Numbers
use their decimal rendering; timestamps their ISO date. -/
def pyStr : Val → String
  | Val.none => "nan"
  | Val.num q =>
      if q.den = 1 then toString q.num ++ ".0"
      else toString q.num ++ "/" ++ toString q.den
  | Val.str s => s
  | Val.bool b => if b then "True" else "False"
  | Val.list l => "[" ++ String.intercalate ", " (l.map (fun s => "'" ++ s ++ "'")) ++ "]"
  | Val.date y m d => toString y ++ "-" ++ pad2 m ++ "-" ++ pad2 d

/-- Model of `pd.isna(v)` on one cell.  On a list, pandas evaluates the
truth value of an elementwise boolean array, which raises unless the list
has exactly one element. -/
def pdIsna : Val → Except Unit Bool
  | Val.none => Except.ok true
  | Val.list l => match l with
      | [_] => Except.ok false
      | _ => Except.error ()
  | _ => Except.ok false

/-! ## Python float parsing

Model of the builtin `float(s)`: optional whitespace and sign, a decimal
mantissa (`123`, `1.5`, `.5`, `5.`), an optional exponent, trailing
whitespace.  The words `inf` / `nan` that Python additionally accepts
produce non-finite floats and are outside this model. -/

/-- Split an optional leading sign; `true` means negative. -/
def splitSign (l : List Char) : Bool × List Char :=
  match l with
  | c :: t => if c = '+' then (false, t) else if c = '-' then (true, t) else (false, l)
  | [] => (false, l)

/-- Parse the decimal mantissa of a float literal: returns its value and
the remaining characters, or `none`. -/
def parseMantissa (l : List Char) : Option (ℚ × List Char) :=
  match l with
  | c :: t =>
      if c = '.' then
        match t with
        | d :: _ =>
            if d.isDigit then
              some (fracValQ (t.takeWhile Char.isDigit), t.dropWhile Char.isDigit)
            else none
        | [] => none
      else if c.isDigit then
        match l.dropWhile Char.isDigit with
        | c2 :: r2 =>
            if c2 = '.' then
              some ((digitsValN (l.takeWhile Char.isDigit) : ℚ) +
                    fracValQ (r2.takeWhile Char.isDigit),
                  r2.dropWhile Char.isDigit)
            else some ((digitsValN (l.takeWhile Char.isDigit) : ℚ), c2 :: r2)
        | [] => some ((digitsValN (l.takeWhile Char.isDigit) : ℚ), [])
      else none
  | [] => none

/-- Parse an optional exponent part `e±ddd`; fails if an `e` is present but
malformed, as `float` does. -/
def parseExponent (l : List Char) : Option (ℤ × List Char) :=
  match l with
  | c :: t =>
      if c = 'e' || c = 'E' then
        let (neg, t2) := splitSign t
        match t2 with
        | d :: _ =>
            if d.isDigit then
              let e : ℤ := (digitsValN (t2.takeWhile Char.isDigit) : ℤ)
              some ((if neg then -e else e), t2.dropWhile Char.isDigit)
            else none
        | [] => none
      else some (0, l)
  | [] => some (0, [])

/-- Model of Python `float(s)` restricted to finite decimal literals. -/
def pyFloat (l : List Char) : Option ℚ :=
  let l1 := l.dropWhile pyIsSpace
  let (neg, l2) := splitSign l1
  match parseMantissa l2 with
  | none => none
  | some (m, r) =>
      match parseExponent r with
      | none => none
      | some (e, r2) =>
          if (r2.dropWhile pyIsSpace).isEmpty then
            some ((if neg then -m else m) * (10 : ℚ) ^ e)
          else none

/-! ## The Closed RR range regex

`_RR_RANGE_RE = ([+-]?\d+(?:\.\d+)?)\s*(?:-|–|to)\s*([+-]?\d+(?:\.\d+)?)`
with `re.I`, searched (not anchored) in the stripped cell text.

The matcher below is greedy and deterministic.  This agrees with Python's
backtracking semantics for this particular pattern: shortening a greedy
`\d+` leaves a digit as the next character, and a digit can never start
`(?:\.\d+)?`-after-failure, `\s*`-then-separator, or the separator, so
backtracking can never turn a failure into a match. -/

/-- Parse the `\d+(?:\.\d+)?` body of a number after its sign was split
off; returns its (signed) value and the rest. -/
def parseNumCore (neg : Bool) (l1 : List Char) : Option (ℚ × List Char) :=
  match l1 with
  | c :: _ =>
      if c.isDigit then
        match l1.dropWhile Char.isDigit with
        | c2 :: r2 =>
            if c2 = '.' then
              match r2 with
              | d :: _ =>
                  if d.isDigit then
                    some ((if neg then
                        -((digitsValN (l1.takeWhile Char.isDigit) : ℚ) +
                          fracValQ (r2.takeWhile Char.isDigit))
                      else ((digitsValN (l1.takeWhile Char.isDigit) : ℚ) +
                          fracValQ (r2.takeWhile Char.isDigit))),
                      r2.dropWhile Char.isDigit)
                  else some ((if neg then -(digitsValN (l1.takeWhile Char.isDigit) : ℚ)
                      else (digitsValN (l1.takeWhile Char.isDigit) : ℚ)), c2 :: r2)
              | [] => some ((if neg then -(digitsValN (l1.takeWhile Char.isDigit) : ℚ)
                  else (digitsValN (l1.takeWhile Char.isDigit) : ℚ)), c2 :: r2)
            else some ((if neg then -(digitsValN (l1.takeWhile Char.isDigit) : ℚ)
                else (digitsValN (l1.takeWhile Char.isDigit) : ℚ)), c2 :: r2)
        | [] => some ((if neg then -(digitsValN (l1.takeWhile Char.isDigit) : ℚ)
            else (digitsValN (l1.takeWhile Char.isDigit) : ℚ)), [])
      else none
  | [] => none

/-- Parse one `[+-]?\d+(?:\.\d+)?` number; returns its value and the
rest. -/
def parseNum (l : List Char) : Option (ℚ × List Char) :=
  parseNumCore (splitSign l).1 (splitSign l).2

/-- Parse the `(?:-|–|to)` separator (`to` case-insensitively). -/
def parseSep (l : List Char) : Option (List Char) :=
  match l with
  | c :: t =>
      if c = '-' then some t
      else if c = '–' then some t
      else
        match t with
        | o :: t2 => if (c = 't' || c = 'T') && (o = 'o' || o = 'O') then some t2 else none
        | [] => none
  | [] => none

/-- Try to match the range regex at the start of the text. -/
def matchRangeAt (l : List Char) : Option (ℚ × ℚ) :=
  match parseNum l with
  | none => none
  | some (a, r1) =>
      match parseSep (r1.dropWhile pyIsSpace) with
      | none => none
      | some r3 =>
          match parseNum (r3.dropWhile pyIsSpace) with
          | none => none
          | some (b, _) => some (a, b)

/-- Leftmost match of the range regex anywhere in the text (`re.search`). -/
def searchRange : List Char → Option (ℚ × ℚ)
  | [] => none
  | l@(_ :: t) =>
      match matchRangeAt l with
      | some ab => some ab
      | none => searchRange t

/-! ## Field parsers (`src/edge_analysis/core/parsing.py`) -/

/-- Model of `parse_closed_rr`:  `None`/`nan` and empty text map to `nan`;
numbers (including booleans, which are ints in Python) pass through; text
is searched for a range `a-b` / `a–b` / `a to b` whose endpoints are
averaged; otherwise all `+` signs are removed and a plain float parse is
attempted; anything else is `nan`. -/
def parse_closed_rr (x : Val) : PyF :=
  match x with
  | Val.none => PyF.nan
  | Val.num q => PyF.fin q
  | Val.bool b => PyF.fin (if b then 1 else 0)
  | _ =>
      let s := pstrip (pyStr x).data
      if s.isEmpty then PyF.nan
      else
        match searchRange s with
        | some (a, b) => PyF.fin ((a + b) / 2)
        | none =>
            match pyFloat (s.filter (· ≠ '+')) with
            | some v => PyF.fin v
            | none => PyF.nan

/-- Model of `normalize_result_label`: non-strings map to `""`; otherwise
the stripped lowercased text is looked up among the known phrases. -/
def normalize_result_label (x : Val) : String :=
  match x with
  | Val.str s =>
      let t : List Char := pyLower (pstrip s.data)
      if t = "early close (ended up being a win)".data then "WIN"
      else if t = "early close (ended up being a be)".data then "WIN"
      else if t = "full tp".data then "WIN"
      else if t = "breakeven".data || t = "break even".data || t = "b/e".data then "BE"
      else if t = "loss".data then "LOSS"
      else ""
  | _ => ""

/-- Try to coerce a value with Python `float(x)`; `none` models the raising
executions (which `classify_outcome_from_fields` catches and ignores). -/
def tryFloat : Val → Option ℚ
  | Val.num q => some q
  | Val.bool b => some (if b then 1 else 0)
  | Val.str s => pyFloat s.data
  | _ => none

/-- Model of `classify_outcome_from_fields`: the explicit result label wins;
otherwise the sign of a floatable non-missing `closed_rr`; otherwise the
sign of a floatable non-missing `pnl`; otherwise `"Unknown"`.  The
`pd.notna` truthiness check raises on most list inputs. -/
def classify_outcome_from_fields (result_raw closed_rr pnl : Val) :
    Except Unit String := do
  let label := normalize_result_label result_raw
  if label = "WIN" then return "Win"
  else if label = "BE" then return "BE"
  else if label = "LOSS" then return "Loss"
  else
    let rrIsNa ← pdIsna closed_rr
    match if rrIsNa then Option.none else tryFloat closed_rr with
    | some rr =>
        if rr > 0 then return "Win"
        else if rr = 0 then return "BE"
        else return "Loss"
    | Option.none =>
        let pnlIsNa ← pdIsna pnl
        match if pnlIsNa then Option.none else tryFloat pnl with
        | some p =>
            if p > 0 then return "Win"
            else if p = 0 then return "BE"
            else return "Loss"
        | Option.none => return "Unknown"

/-! ## Instrument, session, account, duration parsers -/

/-- Regex `xau|gold` (case-insensitive), given lowercased text. -/
def instrGold (t : List Char) : Bool :=
  containsSub "xau".data t || containsSub "gold".data t

/-- Regex `nas|ndx|nasdaq|us100` (case-insensitive), given lowercased text. -/
def instrNasdaq (t : List Char) : Bool :=
  containsSub "nas".data t || containsSub "ndx".data t ||
  containsSub "nasdaq".data t || containsSub "us100".data t

/-- Regex `audusd|aud\/?usd|\bau\b|\baud\b` (case-insensitive), given
lowercased text. -/
def instrAud (t : List Char) : Bool :=
  containsSub "audusd".data t || containsSub "aud/usd".data t ||
  hasWord "au".data t || hasWord "aud".data t

/-- Model of `infer_instrument`: the first matching instrument pattern wins
(patterns are searched in the raw `str(v)` text, case-insensitively);
otherwise the stripped text, or "Unknown" when that is empty.  The
`pd.isna` truthiness check raises on most list inputs. -/
def infer_instrument (v : Val) : Except Unit String := do
  let isna ← pdIsna v
  let s : List Char := if isna then [] else (pyStr v).data
  let t := pyLower s
  if instrGold t then return "Gold"
  else if instrNasdaq t then return "NASDAQ"
  else if instrAud t then return "AUDUSD"
  else
    let s2 := pstrip s
    if s2.isEmpty then return "Unknown" else return (String.mk s2)

/-- Regex `\bny\b|nyc|new ?york|us session|us open|new-?york` on lowercased
text. -/
def sessionNY (t : List Char) : Bool :=
  hasWord "ny".data t || containsSub "nyc".data t ||
  containsSub "new york".data t || containsSub "newyork".data t ||
  containsSub "us session".data t || containsSub "us open".data t ||
  containsSub "new-york".data t

/-- Regex `london|ldn|uk session|eu session|euro` on lowercased text. -/
def sessionLondon (t : List Char) : Bool :=
  containsSub "london".data t || containsSub "ldn".data t ||
  containsSub "uk session".data t || containsSub "eu session".data t ||
  containsSub "euro".data t

/-- Regex `asia|asian|tokyo|sydney` on lowercased text. -/
def sessionAsia (t : List Char) : Bool :=
  containsSub "asia".data t || containsSub "asian".data t ||
  containsSub "tokyo".data t || containsSub "sydney".data t

/-- Model of `normalize_session`: lowercase and strip `str(s)`; empty or
"nan" text resolves to `None`; then the three session synonym patterns;
otherwise the title-cased text. -/
def normalize_session (s : Val) : Val :=
  let t : List Char := pstrip (pyLower (pyStr s).data)
  if t.isEmpty || t = "nan".data then Val.none
  else if sessionNY t then Val.str "New York"
  else if sessionLondon t then Val.str "London"
  else if sessionAsia t then Val.str "Asia"
  else Val.str (String.mk (pyTitle t))

/-- Model of `_split_listish`: `nan` maps to `[]`; otherwise split the
stripped text on `;`/`,` and keep the stripped nonempty parts.  The
`pd.isna` truthiness check raises on most list inputs. -/
def split_listish (x : Val) : Except Unit (List String) := do
  let isna ← pdIsna x
  if isna then return []
  else
    let s := pstrip (pyStr x).data
    if s.isEmpty then return []
    else
      let parts := (splitSemiComma s).map (fun p => String.mk (pstrip p))
      return parts.filter (fun p => p ≠ "")

/-- Model of `normalize_entry_model`: non-strings and blank text map to
`""`; known substrings map to their canonical labels; `yes`/`no`/`n/a`/`na`
map to `""`; otherwise the title-cased text. -/
def normalize_entry_model (x : Val) : String :=
  match x with
  | Val.str s =>
      let t : List Char := pyLower (pstrip s.data)
      if t.isEmpty then ""
      else if containsSub "internal fbos".data t then "Internal FBoS Protected Structure"
      else if containsSub "external fbos".data t then "External FBOS Protected Structure"
      else if containsSub "internal protected structure".data t then "Internal Protected Structure"
      else if containsSub "external protected structure".data t then "External Protected Structure"
      else if containsSub "internal no close".data t then "Internal No Close"
      else if containsSub "external no close".data t then "External No Close"
      else if t = "yes".data || t = "no".data || t = "n/a".data || t = "na".data then ""
      else String.mk (pyTitle t)
  | _ => ""

/-- The known canonical entry-model set of `build_models_list`. -/
def modelSet : List String :=
  ["Internal FBoS Protected Structure", "Internal No Close",
   "Internal Protected Structure", "External FBOS Protected Structure",
   "External No Close", "External Protected Structure"]

/-- Insert a string into a sorted list (used to model Python `sorted`). -/
def insertSorted (x : String) : List String → List String
  | [] => [x]
  | y :: t => if x ≤ y then x :: y :: t else y :: insertSorted x t

/-- Ascending lexicographic sort, the model of Python `sorted` on strings. -/
def sortStrings (l : List String) : List String := l.foldr insertSorted []

/-- Model of `build_models_list`: split both inputs, normalize each token,
prefer known canonical labels (first occurrence order), otherwise the
sorted deduplicated normalized tokens. -/
def build_models_list (entry multi : Val) : Except Unit (List String) := do
  let a ← split_listish entry
  let b ← split_listish multi
  let models := (a ++ b).map (fun m => normalize_entry_model (Val.str m))
  if models ≠ [] then
    let keep := (models.filter (fun m => modelSet.contains m)).dedup
    if keep ≠ [] then return keep
    else return (sortStrings models.dedup)
  else return (sortStrings models.dedup)

/-- Model of `normalize_account_group`: non-strings and blank strings map
to `None`; known account phrases map to their canonical group; otherwise
the stripped title-cased input. -/
def normalize_account_group (s : Val) : Val :=
  match s with
  | Val.str str =>
      if (pstrip str.data).isEmpty then Val.none
      else
        let t : List Char := pyLower (pstrip str.data)
        if t = "late ft".data then Val.str "Forward Test"
        else if t = "ft on demo challenge".data then Val.str "Forward Test"
        else if t = "live on challenge".data then Val.str "Challenge Accounts"
        else if t = "live on funded".data then Val.str "Funded Account"
        else if t = "live on personal".data then Val.str "Personal Accounts"
        else if t = "live on track record & trade copier".data then Val.str "Personal Accounts"
        else if t = "track record account".data then Val.str "Track Record Account"
        else if t = "live on track record".data then Val.str "Track Record Account"
        else if t = "trade copier".data then Val.str "Track Record Account"
        else Val.str (String.mk (pyTitle (pstrip str.data)))
  | _ => Val.none

/-- Model of `build_duration_bin`: missing input yields `nan`; otherwise
`float(minutes)` (which raises on non-numeric text, on timestamps and on
lists) and the fixed thresholds. -/
def build_duration_bin (minutes : Val) : Except Unit Val := do
  let isna ← pdIsna minutes
  if isna then return Val.none
  else
    match tryFloat minutes with
    | some v =>
        if v ≤ 30 then return Val.str "≤30m"
        else if v ≤ 120 then return Val.str "30m–2h"
        else if v ≤ 360 then return Val.str "2–6h"
        else return Val.str ">6h"
    | Option.none => Except.error ()

/-! ## Aggregation engine (`src/core/metrics.py`)

The repository's `src/schema.py` is not part of the sources; only its
importers are.  Modelled from the spec: the canonical outcome labels are
the enum `Win` / `BE` / `Loss` (spec section 3) and the canonical column
labels are `Date` and the outcome column counted by `win_be_loss_counts`
(spec section 4.5 counts exact-match outcomes). -/

/-- Modelled from the spec: canonical result labels of the missing
`src/schema.py` (`RESULT_WIN`, `RESULT_BE`, `RESULT_LOSS`). -/
def RESULT_WIN : String := "Win"

/-- Modelled from the spec: the break-even result label. -/
def RESULT_BE : String := "BE"

/-- Modelled from the spec: the loss result label. -/
def RESULT_LOSS : String := "Loss"

/-- Modelled from the spec: canonical column labels of the missing
`src/schema.py` (`COL_DATE`, `COL_RESULT`). -/
def COL_DATE : String := "Date"

/-- Modelled from the spec: the outcome column label. -/
def COL_RESULT : String := "Outcome"

/-- Round a rational to two decimal places, the model of Python
`round(x, 2)` used by the aggregation engine. -/
def round2 (q : ℚ) : ℚ := (round (q * 100) : ℤ) / 100

/-- Outcome of `percentages_sum_to_100`: the three percentages. -/
structure Pcts where
  winP : ℚ
  beP : ℚ
  lossP : ℚ
deriving DecidableEq, Repr

/-- Model of `percentages_sum_to_100`: each share rounded to two decimals,
with the rounding drift added to the largest rounded component so that the
three always sum to exactly 100. -/
def percentages_sum_to_100 (wins bes losses : ℕ) : Pcts :=
  let total := wins + bes + losses
  if total = 0 then ⟨0, 0, 0⟩
  else
    let w := round2 ((wins : ℚ) / (total : ℚ) * 100)
    let b := round2 ((bes : ℚ) / (total : ℚ) * 100)
    let l := round2 ((losses : ℚ) / (total : ℚ) * 100)
    let drift := round2 (100 - (w + b + l))
    if drift ≠ 0 then
      if w ≥ b ∧ w ≥ l then ⟨round2 (w + drift), b, l⟩
      else if b ≥ w ∧ b ≥ l then ⟨w, round2 (b + drift), l⟩
      else ⟨w, b, round2 (l + drift)⟩
    else ⟨w, b, l⟩

/-! ## Grouped win rates (`group_win_rates`)

Tables are modelled with a column list and association-list rows.  The
missing value of a cell is `Val.none`.  Pandas `groupby` excludes rows
whose key contains a missing value (its default `dropna=True`) and emits
the groups in sorted key order; the order of the output rows is
irrelevant to the verified properties, so the model emits groups in
first-occurrence order. -/

/-- A row of a metrics table: column name to cell value. -/
structure MRow where
  cells : List (String × Val)
deriving DecidableEq, Repr

/-- A metrics table. -/
structure MTable where
  cols : List String
  rows : List MRow
deriving DecidableEq, Repr

/-- Cell access; a missing entry reads as a missing value. -/
def mget (r : MRow) (c : String) : Val :=
  (r.cells.lookup c).getD Val.none

/-- Whether a cell value is missing for grouping purposes. -/
def isnaVal (v : Val) : Bool := v = Val.none

/-- Date parsing model for `pd.to_datetime(..., errors="coerce")` on one
cell: parsed timestamps pass through, ISO `YYYY-MM-DD` text (optionally
followed by a time suffix) is parsed, everything else coerces to `NaT`
(numeric-epoch inputs are outside the model). -/
def parseIsoDate (l : List Char) : Option (ℕ × ℕ × ℕ) :=
  match l with
  | y1 :: y2 :: y3 :: y4 :: '-' :: m1 :: m2 :: '-' :: d1 :: d2 :: rest =>
      if ([y1, y2, y3, y4, m1, m2, d1, d2].all Char.isDigit) &&
         (rest.isEmpty || rest.head? = some ' ' || rest.head? = some 'T') then
        some (digitsValN [y1, y2, y3, y4], digitsValN [m1, m2], digitsValN [d1, d2])
      else none
  | _ => none

/-- Model of one-cell `pd.to_datetime` returning a year-month-day triple. -/
def pyToDatetime : Val → Option (ℕ × ℕ × ℕ)
  | Val.date y m d => some (y, m, d)
  | Val.str s => parseIsoDate s.data
  | _ => none

/-- Coerce one cell with `pd.to_datetime(..., errors="coerce")`. -/
def toDatetimeVal (v : Val) : Val :=
  match pyToDatetime v with
  | some (y, m, d) => Val.date y m d
  | none => Val.none

/-- Model of `_normalize_df`: coerce the `Date` column to datetimes when
present. -/
def normalize_df (t : MTable) : MTable :=
  if t.cols.contains COL_DATE then
    ⟨t.cols, t.rows.map (fun r =>
      ⟨r.cells.map (fun cv =>
        if cv.1 = COL_DATE then (cv.1, toDatetimeVal cv.2) else cv)⟩)⟩
  else t

/-- Model of `win_be_loss_counts` on a list of rows sharing the table's
columns: exact-match counts of the three outcome labels (missing cells
read as `""` via `fillna` and match no label). -/
def win_be_loss_counts (rows : List MRow) : ℕ × ℕ × ℕ :=
  ((rows.filter (fun r => mget r COL_RESULT = Val.str RESULT_WIN)).length,
   (rows.filter (fun r => mget r COL_RESULT = Val.str RESULT_BE)).length,
   (rows.filter (fun r => mget r COL_RESULT = Val.str RESULT_LOSS)).length)

/-- One output row of `group_win_rates`. -/
structure GroupRow where
  keys : List (String × Val)
  trades : ℕ
  winP : ℚ
  beP : ℚ
  lossP : ℚ
deriving DecidableEq, Repr

/-- The grouping key of a row for the given grouping columns. -/
def groupKey (by_ : List String) (r : MRow) : List Val :=
  by_.map (mget r)

/-- The rows that survive grouping: those with no missing value in any
grouping column (pandas `groupby` drops missing keys). -/
def validRows (t : MTable) (by_ : List String) : List MRow :=
  (normalize_df t).rows.filter (fun r => (groupKey by_ r).all (fun v => ¬ isnaVal v))

/-- One output group: its key cells, its size and its percentages. -/
def mkGroupRow (t : MTable) (by_ : List String) (k : List Val) : GroupRow :=
  let g := (validRows t by_).filter (fun r => groupKey by_ r = k)
  let c := win_be_loss_counts g
  let perc := percentages_sum_to_100 c.1 c.2.1 c.2.2
  ⟨by_.zip k, g.length, perc.winP, perc.beP, perc.lossP⟩

/-- Model of `group_win_rates`: empty input or a missing outcome column
yields an empty table; otherwise rows with a missing value in any grouping
column are dropped, and each remaining group yields its size and its
win/BE/loss percentages (groups in first-occurrence order; pandas sorts
them, which none of the verified properties depend on). -/
def group_win_rates (t : MTable) (by_ : List String) : List GroupRow :=
  if t.rows.isEmpty then []
  else if (normalize_df t).cols.contains COL_RESULT then
    ((validRows t by_).map (groupKey by_)).dedup.map (mkGroupRow t by_)
  else []

/-! ## Template adapter (`src/edge_analysis/data/template_adapter.py`) -/

/-- Model of a JSON value for mapping-profile files. -/
inductive JsonM where
  | jnull : JsonM
  | jbool (b : Bool) : JsonM
  | jnum (q : ℚ) : JsonM
  | jstr (s : String) : JsonM
  | jarr (l : List JsonM) : JsonM
  | jdict (es : List (String × JsonM)) : JsonM

/-- Outcome of opening and JSON-decoding one profile file with one codec:
a parsed value, a decode error (`json.JSONDecodeError`), or any other
error while opening or reading. -/
inductive ReadRes where
  | ok (j : JsonM) : ReadRes
  | jsonError : ReadRes
  | ioError : ReadRes

/-- One candidate profile file: its stem and the outcomes of reading it
with the `utf-8` and `utf-8-sig` codecs. -/
structure FileM where
  stem : String
  utf8 : ReadRes
  utf8sig : ReadRes

/-- A successfully loaded mapping profile: the file stem (recorded by the
loader under `_name`) and the entries of the decoded JSON object. -/
structure ProfileRec where
  name : String
  entries : List (String × JsonM)

/-- Model of `_load_maps` over the sorted `*.json` directory listing: try
`utf-8`; on a JSON decode error retry `utf-8-sig`; on any other error give
up on the file; keep only results that are JSON objects, tagging each with
its file stem. -/
def _load_maps : List FileM → List ProfileRec
  | [] => []
  | f :: rest =>
      let m : Option JsonM :=
        match f.utf8 with
        | ReadRes.ok j => some j
        | ReadRes.jsonError =>
            match f.utf8sig with
            | ReadRes.ok j => some j
            | _ => none
        | ReadRes.ioError => none
      match m with
      | some (JsonM.jdict es) => ⟨f.stem, es⟩ :: _load_maps rest
      | _ => _load_maps rest

/-- Characterization of a loadable profile file, following the spec: a
file whose content decodes (tolerating a byte-order mark via the retry
codec) to a JSON object yields a profile named by its stem; any other file
is skipped. -/
def validProfileOf (f : FileM) : Option ProfileRec :=
  match f.utf8 with
  | ReadRes.ok (JsonM.jdict es) => some ⟨f.stem, es⟩
  | ReadRes.ok _ => none
  | ReadRes.jsonError =>
      match f.utf8sig with
      | ReadRes.ok (JsonM.jdict es) => some ⟨f.stem, es⟩
      | _ => none
  | ReadRes.ioError => none

/-- The structured fields of a loaded mapping profile that `_score`,
`_choose` and `_adapt_with` read (`m["columns"]`, `m["normalizers"]`,
`m["coercions"]`, `m["_name"]`).  Profiles whose `columns` entry is not
itself a JSON object make the adapter raise and are outside this model. -/
structure MapProfile where
  name : String
  columns : List (String × String)
  normalizers : List (String × List (String × List String))
  coercions : List (String × String)
deriving DecidableEq, Repr

/-- Normalize a header for comparison: `str(h).strip().lower()`. -/
def normHdr (s : String) : String :=
  String.mk (pyLower (pstrip s.data))

/-- Model of `_score`: case-insensitive Jaccard similarity between table
headers and the profile's declared source-column keys. -/
def _score (headers : List String) (m : MapProfile) : ℚ :=
  if ((m.columns.map Prod.fst).map normHdr).toFinset = ∅ then 0
  else if ((headers.map normHdr).toFinset ∪
      ((m.columns.map Prod.fst).map normHdr).toFinset).card = 0 then 0
  else (((headers.map normHdr).toFinset ∩
      ((m.columns.map Prod.fst).map normHdr).toFinset).card : ℚ) /
    (((headers.map normHdr).toFinset ∪
      ((m.columns.map Prod.fst).map normHdr).toFinset).card : ℚ)

/-- The best-scoring profile, keeping the earlier profile on ties (Python's
stable descending sort makes `ranked[0]` the first maximal element). -/
def chooseBestAux (headers : List String) :
    Option MapProfile → List MapProfile → Option MapProfile
  | acc, [] => acc
  | Option.none, m :: rest => chooseBestAux headers (some m) rest
  | some m0, m :: rest =>
      chooseBestAux headers
        (if _score headers m > _score headers m0 then some m else some m0) rest

/-- The auto-selection half of `_choose`: the best-scoring profile when its
score reaches the threshold, else `none`. -/
def chooseAuto (headers : List String) (maps : List MapProfile)
    (minScore : ℚ) : Option MapProfile :=
  match chooseBestAux headers Option.none maps with
  | some m => if _score headers m ≥ minScore then some m else Option.none
  | Option.none => Option.none

/-- Model of `_choose`: an explicit forced name wins when found, otherwise
the best-scoring profile subject to the minimum score. -/
def _choose (headers : List String) (maps : List MapProfile)
    (minScore : ℚ) (forceName : Option String) : Option MapProfile :=
  match forceName with
  | some n =>
      match maps.find? (fun m => m.name = n) with
      | some m => some m
      | Option.none => chooseAuto headers maps minScore
  | Option.none => chooseAuto headers maps minScore

/-! ## Table adaptation (`_adapt_with`, `adapt_df`)

Generic dataframes are modelled with a column list and association-list
rows keyed by column name. -/

/-- A generic dataframe. -/
structure DfTable where
  cols : List String
  rows : List (List (String × Val))
deriving DecidableEq, Repr

/-- The canonical column order of the adapter. -/
def CANONICAL_ORDER : List String :=
  ["Date", "Pair", "Session", "Entry Model", "Confluence",
   "Outcome", "Closed RR", "PnL", "Is Complete", "Star Rating", "Notes"]

/-- Model of `_cols_lower_map`: first occurrence wins (`setdefault`). -/
def colsLowerMap (cols : List String) : List (String × String) :=
  cols.foldl (fun acc c =>
    if ((acc.lookup (normHdr c)).isSome : Bool) then acc else acc ++ [(normHdr c, c)]) []

/-- Model of `_find_col`: exact name first, else case-insensitive lookup. -/
def findCol (cols : List String) (name : String) : Option String :=
  if cols.contains name then some name
  else (colsLowerMap cols).lookup (normHdr name)

/-- Insert-or-overwrite into an association list (Python dict update). -/
def upsert (acc : List (String × String)) (k v : String) : List (String × String) :=
  if (acc.lookup k).isSome then
    acc.map (fun kv => if kv.1 = k then (k, v) else kv)
  else acc ++ [(k, v)]

/-- The rename map built by `_adapt_with` from the profile's `columns`. -/
def renameMap (cols : List String) (m : MapProfile) : List (String × String) :=
  m.columns.foldl (fun acc sd =>
    match (colsLowerMap cols).lookup (normHdr sd.1) with
    | some actual => upsert acc actual sd.2
    | Option.none => acc) []

/-- Model of `_normalize`: `None` becomes `""`; otherwise the stripped
lowercased text is compared with each declared raw variant (lowercased)
and mapped to its target; unmatched values pass through. -/
def _normalize (val : Val) (rules : List (String × List String)) : Val :=
  match val with
  | Val.none => Val.str ""
  | v =>
      let s := pyLower (pstrip (pyStr v).data)
      match rules.find? (fun tr => tr.2.any (fun va => s = pyLower va.data)) with
      | some tr => Val.str tr.1
      | Option.none => v

/-- Model of one-cell `_coerce`: the profile-declared kind drives the
coercion (`date` / `float` / `int` / `bool`); unknown kinds pass through. -/
def coerceCell (kind : String) (v : Val) : Val :=
  if kind = "date" then toDatetimeVal v
  else if kind = "float" then
    match pyFloat ((pyStr v).data.filter (fun c => c.isDigit || c = '.' || c = '-')) with
    | some q => Val.num q
    | Option.none => Val.none
  else if kind = "int" then
    match pyFloat ((pyStr v).data.filter (fun c => c.isDigit || c = '-')) with
    | some q => Val.num q
    | Option.none => Val.none
  else if kind = "bool" then
    Val.bool (["true", "1", "yes", "y", "✅"].any
      (fun w => pyLower (pstrip (pyStr v).data) = w.data))
  else v

/-- Gregorian leap year. -/
def isLeap (y : ℕ) : Bool := (y % 4 = 0 && y % 100 ≠ 0) || y % 400 = 0

/-- Days in a month. -/
def daysInMonth (y m : ℕ) : ℕ :=
  if m = 2 then (if isLeap y then 29 else 28)
  else if m = 4 || m = 6 || m = 9 || m = 11 then 30 else 31

/-- Day of year (1-based). -/
def dayOfYear (y m d : ℕ) : ℕ :=
  (((List.range m).filter (fun k => 1 ≤ k && k < m)).map (daysInMonth y)).sum + d

/-- ISO weekday, 1 = Monday .. 7 = Sunday (Zeller's congruence). -/
def isoWeekday (y m d : ℕ) : ℕ :=
  let Y : ℤ := if m < 3 then (y : ℤ) - 1 else (y : ℤ)
  let M : ℤ := if m < 3 then (m : ℤ) + 12 else (m : ℤ)
  let K := Y % 100
  let J := Y / 100
  let h := ((d : ℤ) + (13 * (M + 1)) / 5 + K + K / 4 + J / 4 + 5 * J) % 7
  (((h + 5) % 7).toNat + 1)

/-- Number of ISO weeks in a year (52 or 53). -/
def isoWeeksInYear (y : ℕ) : ℕ :=
  let p : ℕ → ℤ := fun yy => ((yy : ℤ) + (yy : ℤ) / 4 - (yy : ℤ) / 100 + (yy : ℤ) / 400) % 7
  if p y = 4 || p (y - 1) = 3 then 53 else 52

/-- ISO week number of a date. -/
def isoWeek (y m d : ℕ) : ℕ :=
  let w : ℤ := ((dayOfYear y m d : ℤ) - (isoWeekday y m d : ℤ) + 10) / 7
  if w < 1 then isoWeeksInYear (y - 1)
  else if w > (isoWeeksInYear y : ℤ) then 1
  else w.toNat

/-- Weekday names as `Series.dt.day_name` produces them. -/
def dayNames : List String :=
  ["Monday", "Tuesday", "Wednesday", "Thursday", "Friday", "Saturday", "Sunday"]

/-- The weekday name of a date. -/
def dayNameOf (y m d : ℕ) : String :=
  dayNames.getD (isoWeekday y m d - 1) ""

/-- Month period string `YYYY-MM`. -/
def monthStr (y m : ℕ) : String := toString y ++ "-" ++ pad2 m

/-- Set (or add) one column of a dataframe, with per-row values computed
from the row. -/
def setCol (t : DfTable) (c : String) (f : List (String × Val) → Val) : DfTable :=
  ⟨if t.cols.contains c then t.cols else t.cols ++ [c],
   t.rows.map (fun r =>
     if ((r.lookup c).isSome : Bool) then r.map (fun kv => if kv.1 = c then (c, f r) else kv)
     else r ++ [(c, f r)])⟩

/-- Read one cell of an association-list row. -/
def dfGet (r : List (String × Val)) (c : String) : Val :=
  (r.lookup c).getD Val.none

/-- Model of `_adapt_with`: rename source columns case-insensitively, add
every missing canonical column as empty text, apply the profile's value
normalizers and type coercions (case-insensitive column resolution),
derive `DayName` / `Month` / `Week` from the date column when present, and
reorder columns canonical-first. -/
def _adapt_with (t : DfTable) (m : MapProfile) : DfTable :=
  let ren := renameMap t.cols m
  let renName : String → String := fun c => ((ren.lookup c).getD c)
  let t1 : DfTable := ⟨t.cols.map renName, t.rows.map (fun r => r.map (fun kv => (renName kv.1, kv.2)))⟩
  let t2 : DfTable := CANONICAL_ORDER.foldl (fun acc col =>
    if acc.cols.contains col then acc
    else ⟨acc.cols ++ [col], acc.rows.map (fun r => r ++ [(col, Val.str "")])⟩) t1
  let t3 : DfTable := m.normalizers.foldl (fun acc kr =>
    match findCol acc.cols kr.1 with
    | some actual => ⟨acc.cols, acc.rows.map (fun r =>
        r.map (fun kv => if kv.1 = actual then (actual, _normalize kv.2 kr.2) else kv))⟩
    | Option.none => acc) t2
  let t4 : DfTable := m.coercions.foldl (fun acc kk =>
    match findCol acc.cols kk.1 with
    | some actual => ⟨acc.cols, acc.rows.map (fun r =>
        r.map (fun kv => if kv.1 = actual then (actual, coerceCell kk.2 kv.2) else kv))⟩
    | Option.none => acc) t3
  let t5 : DfTable :=
    match findCol t4.cols "Date" with
    | some dc =>
        let withDay := setCol t4 "DayName" (fun r =>
          match pyToDatetime (dfGet r dc) with
          | some (y, m, d) => Val.str (dayNameOf y m d)
          | Option.none => Val.none)
        let withMonth := setCol withDay "Month" (fun r =>
          match pyToDatetime (dfGet r dc) with
          | some (y, m, _) => Val.str (monthStr y m)
          | Option.none => Val.str "NaT")
        setCol withMonth "Week" (fun r =>
          match pyToDatetime (dfGet r dc) with
          | some (y, m, d) => Val.num (isoWeek y m d)
          | Option.none => Val.none)
    | Option.none => t4
  ⟨CANONICAL_ORDER ++ t5.cols.filter (fun c => ¬ CANONICAL_ORDER.contains c), t5.rows⟩

/-- Model of `adapt_df`: an empty table passes through; otherwise the
chooser picks a profile (forced name first, else best score at the 0.15
threshold) and either the adapted table and profile name or the original
table and no name are returned. -/
def adapt_df (t : DfTable) (maps : List MapProfile) (forceMapping : Option String) :
    DfTable × Option String :=
  if t.rows.isEmpty || t.cols.isEmpty then (t, Option.none)
  else
    match _choose t.cols maps (3 / 20) forceMapping with
    | Option.none => (t, Option.none)
    | some m => (_adapt_with t m, some m.name)

/-! ## Dataset builder (`load_live_df` of `data_loading.py`)

The builder is modelled from the point where the fetched (and possibly
template-adapted) table is in hand: the per-column parses, the derived
columns and the retained-signal filter of lines 50-131.  The table has a
fixed set of possible columns, each with a presence flag (the source
consults `df.columns` before touching a column); a row stores one `Val`
per possible column.  Derived-column fields of input rows are ignored and
overwritten (or left untouched when the source does not create the
column). -/

/-- A row of the live dataset: source columns, then derived columns. -/
structure LRow where
  date : Val
  pair : Val
  session : Val
  entryModel : Val
  multiEntry : Val
  confluence : Val
  result : Val
  closedRR : Val
  pnl : Val
  rating : Val
  risk : Val
  duration : Val
  account : Val
  dayName : Val
  hour : Val
  instrument : Val
  sessionNorm : Val
  outcome : Val
  stars : Val
  riskPct : Val
  durationBin : Val
  accountGroup : Val
  models : List String
  confl : List String
deriving DecidableEq, Repr

/-- The live dataset: presence flags for source and derived columns, and
the rows. -/
structure LTable where
  hasDate : Bool
  hasPair : Bool
  hasSession : Bool
  hasEntryModel : Bool
  hasMultiEntry : Bool
  hasConfluence : Bool
  hasResult : Bool
  hasClosedRR : Bool
  hasPnL : Bool
  hasRating : Bool
  hasRisk : Bool
  hasDuration : Bool
  hasAccount : Bool
  hasDayName : Bool
  hasHour : Bool
  hasInstrument : Bool
  hasSessionNorm : Bool
  hasOutcome : Bool
  hasStars : Bool
  hasRiskPct : Bool
  hasDurationBin : Bool
  hasAccountGroup : Bool
  hasModels : Bool
  hasConfl : Bool
  rows : List LRow
deriving DecidableEq, Repr

/-- Convert a float-or-nan back to a stored cell. -/
def pyfToVal : PyF → Val
  | PyF.nan => Val.none
  | PyF.fin q => Val.num q

/-- Model of one-cell `pd.to_numeric(..., errors="coerce")`. -/
def pyToNumeric : Val → Val
  | Val.num q => Val.num q
  | Val.bool b => Val.num (if b then 1 else 0)
  | Val.str s =>
      match pyFloat s.data with
      | some q => Val.num q
      | Option.none => Val.none
  | _ => Val.none

/-- Parse one unsigned `\d+(?:\.\d+)?` number (for the risk-percent
regex); returns its value and the rest. -/
def parseUNum (l : List Char) : Option (ℚ × List Char) :=
  match l with
  | c :: _ =>
      if c.isDigit then
        let ip := l.takeWhile Char.isDigit
        let r := l.dropWhile Char.isDigit
        match r with
        | '.' :: r2 =>
            match r2 with
            | d :: _ =>
                if d.isDigit then
                  some ((digitsValN ip : ℚ) + fracValQ (r2.takeWhile Char.isDigit),
                        r2.dropWhile Char.isDigit)
                else some ((digitsValN ip : ℚ), r)
            | [] => some ((digitsValN ip : ℚ), r)
        | _ => some ((digitsValN ip : ℚ), r)
      else none
  | [] => none

/-- Try to match the risk-percent regex `(\d+(?:\.\d+)?)\s*%` at the start
of the text. -/
def matchPctAt (l : List Char) : Option ℚ :=
  match parseUNum l with
  | some (v, r) =>
      match r.dropWhile pyIsSpace with
      | '%' :: _ => some v
      | _ => none
  | Option.none => none

/-- Leftmost match of the risk-percent regex (`Series.str.extract`). -/
def searchPct : List Char → Option ℚ
  | [] => none
  | l@(_ :: t) =>
      match matchPctAt l with
      | some q => some q
      | none => searchPct t

/-- Confluence splitting: `fillna("")`, stringify, split on `;`/`,`, strip
and drop empties. -/
def splitConfluence (v : Val) : List String :=
  let s : String := match v with
    | Val.none => ""
    | w => pyStr w
  ((splitSemiComma s.data).map (fun p => String.mk (pstrip p))).filter (fun p => p ≠ "")

/-- Read a source cell as the row `apply` lambdas do: a missing column
reads as `None` (`Series.get` of an absent label). -/
def colGet (present : Bool) (v : Val) : Val :=
  if present then v else Val.none

/-- Parsed `Date` cell (line 61), when the column exists. -/
def dateStep (t : LTable) (r : LRow) : Val :=
  if t.hasDate then toDatetimeVal r.date else r.date

/-- Parsed `Closed RR` cell (lines 54-55), when the column exists. -/
def closedRRStep (t : LTable) (r : LRow) : Val :=
  if t.hasClosedRR then pyfToVal (parse_closed_rr r.closedRR) else r.closedRR

/-- Coerced `PnL` cell (lines 56-57), when the column exists. -/
def pnlStep (t : LTable) (r : LRow) : Val :=
  if t.hasPnL then pyToNumeric r.pnl else r.pnl

/-- Derived `DayName` cell (line 63). -/
def dayNameStep (t : LTable) (r : LRow) : Val :=
  if t.hasDate then
    match dateStep t r with
    | Val.date y m d => Val.str (dayNameOf y m d)
    | _ => Val.none
  else r.dayName

/-- Derived `Hour` cell (line 64); parsed dates carry no time of day in
this model, so a resolved date reads hour zero. -/
def hourStep (t : LTable) (r : LRow) : Val :=
  if t.hasDate then
    match dateStep t r with
    | Val.date _ _ _ => Val.num 0
    | _ => Val.none
  else r.hour

/-- Derived `Instrument` cell (line 67): the parser when a `Pair` column
exists, the scalar "Unknown" otherwise. -/
def instrumentStep (t : LTable) (r : LRow) : Except Unit Val :=
  if t.hasPair then (infer_instrument r.pair).map Val.str
  else pure (Val.str "Unknown")

/-- Derived `Session Norm` cell (line 68). -/
def sessionNormStep (t : LTable) (r : LRow) : Val :=
  normalize_session (colGet t.hasSession r.session)

/-- Derived `Entry Models List` cell (lines 71-77): with a multi-entry
column, both cells are combined; otherwise the entry-model column alone;
with neither column, line 77 calls `.apply` on the string default and
raises. -/
def modelsStep (t : LTable) (r : LRow) : Except Unit (List String) :=
  if t.hasMultiEntry then
    build_models_list (colGet t.hasEntryModel r.entryModel) r.multiEntry
  else if t.hasEntryModel then build_models_list r.entryModel Val.none
  else Except.error ()

/-- Derived `Entry Confluence List` cell (lines 80-85). -/
def conflStep (t : LTable) (r : LRow) : List String :=
  if t.hasConfluence then splitConfluence r.confluence else []

/-- Derived `Outcome` cell (lines 88-91), computed from the already parsed
`Closed RR` and `PnL` cells. -/
def outcomeStep (t : LTable) (r : LRow) : Except Unit String :=
  classify_outcome_from_fields (colGet t.hasResult r.result)
    (colGet t.hasClosedRR (closedRRStep t r)) (colGet t.hasPnL (pnlStep t r))

/-- Derived `Stars` cell (lines 94-95). -/
def starsStep (t : LTable) (r : LRow) : Val :=
  if t.hasRating then
    match r.rating with
    | Val.str s => Val.num (s.data.count '\u2b50')
    | _ => Val.none
  else r.stars

/-- Derived `Risk %` cell (lines 98-99). -/
def riskPctStep (t : LTable) (r : LRow) : Val :=
  if t.hasRisk then
    match searchPct (pyStr r.risk).data with
    | some q => Val.num q
    | Option.none => Val.none
  else r.riskPct

/-- Coerced `Trade Duration` cell (line 103), when the column exists. -/
def durationStep (t : LTable) (r : LRow) : Val :=
  if t.hasDuration then pyToNumeric r.duration else r.duration

/-- Derived `Duration Bin` cell (line 104), binned from the coerced
duration. -/
def durationBinStep (t : LTable) (r : LRow) : Except Unit Val :=
  if t.hasDuration then build_duration_bin (durationStep t r)
  else pure r.durationBin

/-- Derived `Account Group` cell (lines 107-108). -/
def accountGroupStep (t : LTable) (r : LRow) : Val :=
  if t.hasAccount then normalize_account_group r.account else r.accountGroup

/-- The per-row work of `load_live_df` lines 54-108: parse `Closed RR`,
`PnL`, `Date` and `Trade Duration` in place, and fill every derived
column.  Fallible steps (`pd.isna` truthiness in `infer_instrument` and
`_split_listish`, `float()` in `build_duration_bin`, the missing
`Entry Model` fallback of line 77) propagate as errors. -/
def rowTransform (t : LTable) (r : LRow) : Except Unit LRow := do
  let instrument' <- instrumentStep t r
  let models' <- modelsStep t r
  let outcome' <- outcomeStep t r
  let durationBin' <- durationBinStep t r
  return { r with
    date := dateStep t r, closedRR := closedRRStep t r, pnl := pnlStep t r,
    duration := durationStep t r,
    dayName := dayNameStep t r, hour := hourStep t r,
    instrument := instrument',
    sessionNorm := sessionNormStep t r, outcome := Val.str outcome',
    stars := starsStep t r, riskPct := riskPctStep t r,
    durationBin := durationBin',
    accountGroup := accountGroupStep t r,
    models := models', confl := conflStep t r }

/-- Whether a processed row has a resolved date (line 111). -/
def hasDateRow (t : LTable) (r : LRow) : Bool :=
  t.hasDate && (match r.date with
    | Val.date _ _ _ => true
    | _ => false)

/-- Whether a cell is non-missing (`Series.notna`). -/
def notnaVal (v : Val) : Bool := v ≠ Val.none

/-- Whether the `astype(str)`-then-strip text of a cell is nonempty; a
missing value stringifies to "nan" and therefore counts as nonempty. -/
def strSignal (v : Val) : Bool := ¬ (pstrip (pyStr v).data).isEmpty

/-- The retained-signal disjunction of lines 114-129, over the columns
that exist. -/
def hasSignalRow (t : LTable) (r : LRow) : Bool :=
  (t.hasPnL && notnaVal r.pnl) ||
  (t.hasClosedRR && notnaVal r.closedRR) ||
  (t.hasResult && strSignal r.result) ||
  (t.hasEntryModel && strSignal r.entryModel)

/-- The row filter of line 131. -/
def keepRow (t : LTable) (r : LRow) : Bool :=
  hasDateRow t r && hasSignalRow t r

/-- Model of `load_live_df` lines 50-131: transform every row, then keep
the rows with a resolved date and a retained signal.  The derived columns
exist on the output exactly when the source creates them. -/
def load_live_df (t : LTable) : Except Unit LTable := do
  let rows' ← t.rows.mapM (rowTransform t)
  return { t with
    rows := rows'.filter (keepRow t),
    hasDayName := t.hasDate, hasHour := t.hasDate,
    hasInstrument := true, hasSessionNorm := true,
    hasModels := true, hasConfl := true, hasOutcome := true,
    hasStars := t.hasRating, hasRiskPct := t.hasRisk,
    hasDurationBin := t.hasDuration, hasAccountGroup := t.hasAccount }

/-- Decidable equality of error-carrying results. -/
instance exceptDecEq {e a : Type} [DecidableEq e] [DecidableEq a] :
    DecidableEq (Except e a) := fun x y =>
  match x, y with
  | Except.ok v, Except.ok w =>
      if h : v = w then isTrue (by rw [h])
      else isFalse (fun he => h (by injection he))
  | Except.error v, Except.error w =>
      if h : v = w then isTrue (by rw [h])
      else isFalse (fun he => h (by injection he))
  | Except.ok _, Except.error _ => isFalse (fun he => Except.noConfusion he)
  | Except.error _, Except.ok _ => isFalse (fun he => Except.noConfusion he)

/-- The phrases `normalize_result_label` actually documents and maps (the
spec's list, minus the unhandled `"be"`). -/
def documentedResultPhrases : List (List Char) :=
  ["early close (ended up being a win)".data,
   "early close (ended up being a be)".data,
   "full tp".data, "breakeven".data, "break even".data, "b/e".data,
   "loss".data]

/-- Total trade count over the output groups. -/
def sumTrades (gs : List GroupRow) : ℕ := (gs.map GroupRow.trades).sum

/-- A concrete table with a missing `Session` cell in the third row. -/
def tGrp : MTable :=
  ⟨["Session", "Outcome"],
   [⟨[("Session", Val.str "A"), ("Outcome", Val.str "Win")]⟩,
    ⟨[("Session", Val.str "A"), ("Outcome", Val.str "Loss")]⟩,
    ⟨[("Session", Val.none), ("Outcome", Val.str "Win")]⟩]⟩

/-- A profile whose declared source columns match `["Date", "pair"]` up to
case and whitespace. -/
def mExact : MapProfile := ⟨"mine", [("date", "Date"), ("  PAIR ", "Pair")], [], []⟩

/-- A profile with completely disjoint declared source columns. -/
def mDisj : MapProfile := ⟨"other", [("alpha", "A"), ("beta", "B")], [], []⟩

/-- A concrete incoming table. -/
def tHdr : DfTable :=
  ⟨["Date", "pair"], [[("Date", Val.str "2024-01-01"), ("pair", Val.str "XAU")]]⟩

/-- Scalar cell values: everything except lists. -/
def isScalarVal : Val → Bool
  | Val.list _ => false
  | _ => true

/-- Numeric-or-missing cell values (floats, ints, bools, missing). -/
def isNumericOrNull : Val → Bool
  | Val.none => true
  | Val.num _ => true
  | Val.bool _ => true
  | _ => false

/-- A row whose every cell is missing. -/
def baseLRow : LRow :=
  ⟨Val.none, Val.none, Val.none, Val.none, Val.none, Val.none, Val.none,
   Val.none, Val.none, Val.none, Val.none, Val.none, Val.none, Val.none,
   Val.none, Val.none, Val.none, Val.none, Val.none, Val.none, Val.none,
   Val.none, [], []⟩

/-- A table with no columns and no rows. -/
def emptyLTable : LTable :=
  ⟨false, false, false, false, false, false, false, false, false, false,
   false, false, false, false, false, false, false, false, false, false,
   false, false, false, false, []⟩

/-- A table whose single row has a date but a missing `Result` cell and no
other signal; the `Date`, `Entry Model`, `Result`, `Closed RR` and `PnL`
columns all exist. -/
def rowNullResult : LRow :=
  { baseLRow with date := Val.str "2024-01-05", entryModel := Val.str "" }

/-- The table holding `rowNullResult`, with the five filter columns
present. -/
def tblNullResult : LTable :=
  { emptyLTable with
    hasDate := true, hasEntryModel := true, hasResult := true,
    hasClosedRR := true, hasPnL := true,
    rows := [rowNullResult] }

/-- Definition following the spec's words for claim C4: the text of a cell
with a missing value empty, otherwise the stripped stringification. -/
def claimText (v : Val) : List Char :=
  match v with
  | Val.none => []
  | w => pstrip (pyStr w).data

/-- Definition following the spec's words for claim C4: a retained row must
have a resolved date and one of: resolved `PnL`, resolved `Closed RR`,
non-empty result text, non-empty entry-model text — where a missing value
has no text. -/
def claimRetained (t : LTable) (r : LRow) : Bool :=
  hasDateRow t r &&
  ((t.hasPnL && notnaVal r.pnl) || (t.hasClosedRR && notnaVal r.closedRR) ||
   (t.hasResult && ¬ (claimText r.result).isEmpty) ||
   (t.hasEntryModel && ¬ (claimText r.entryModel).isEmpty))

/-- A table whose single row has a null date and no signal anywhere. -/
def rowNoDate : LRow :=
  { baseLRow with result := Val.str "", entryModel := Val.str "" }

/-- The table holding `rowNoDate`, with the five filter columns present. -/
def tblNoDate : LTable :=
  { emptyLTable with
    hasDate := true, hasEntryModel := true, hasResult := true,
    hasClosedRR := true, hasPnL := true,
    rows := [rowNoDate] }

/-- A table whose single row has a date and only an entry model. -/
def rowBreakout : LRow :=
  { baseLRow with date := Val.str "2024-01-06", entryModel := Val.str "Breakout" }

/-- The table holding `rowBreakout`. -/
def tblBreakout : LTable :=
  { emptyLTable with
    hasDate := true, hasEntryModel := true,
    rows := [rowBreakout] }

/-- The canonical table built from `tblBreakout`. -/
def uBreakout : LTable := (load_live_df tblBreakout).toOption.getD emptyLTable

/-- The character of one decimal digit. -/
def digitChar (d : ℕ) : Char := Char.ofNat (48 + d)

/-- Value of a digit list, most significant first. -/
def dval (ds : List ℕ) : ℕ := ds.foldl (fun a d => 10 * a + d) 0

/-- A decimal numeral as the range regex admits it: an optional sign, an
integer part, an optional fractional part. -/
structure Numeral where
  neg : Option Bool
  ip : List ℕ
  fp : Option (List ℕ)

/-- The characters of a numeral's sign. -/
def signChars : Option Bool → List Char
  | Option.none => []
  | some false => ['+']
  | some true => ['-']

/-- The characters of an optional fractional part. -/
def fracChars : Option (List ℕ) → List Char
  | Option.none => []
  | some fs => '.' :: fs.map digitChar

/-- The digit characters after the numeral's sign. -/
def renderBody (n : Numeral) : List Char :=
  n.ip.map digitChar ++ fracChars n.fp

/-- The written form of a numeral. -/
def render (n : Numeral) : List Char := signChars n.neg ++ renderBody n

/-- The rational value of a numeral's digits. -/
def bodyVal (n : Numeral) : ℚ :=
  (dval n.ip : ℚ) + (match n.fp with
    | Option.none => 0
    | some fs => (dval fs : ℚ) / (10 : ℚ) ^ fs.length)

/-- The rational value of a numeral. -/
def nval (n : Numeral) : ℚ :=
  if n.neg = some true then -(bodyVal n) else bodyVal n

/-- Well-formedness of a numeral: nonempty digit parts, digits below ten. -/
def WFnum (n : Numeral) : Prop :=
  n.ip ≠ [] ∧ (∀ d ∈ n.ip, d < 10) ∧
  (∀ fs, n.fp = some fs → fs ≠ [] ∧ ∀ d ∈ fs, d < 10)

/-- The three written range separators of the claim. -/
inductive RangeSep where
  | dash : RangeSep
  | endash : RangeSep
  | toWord : RangeSep

/-- The characters of a written range separator. -/
def sepRender : RangeSep → List Char
  | RangeSep.dash => ['-']
  | RangeSep.endash => ['–']
  | RangeSep.toWord => [' ', 't', 'o', ' ']

/-- Characters that can begin the range separator. -/
def isSepStart (c : Char) : Bool :=
  c = '-' || c = '–' || c = 't' || c = 'T'

/-- Two tables agreeing on which source columns exist (the only flags the
per-row transforms and the retention filter consult). -/
def sameSourceCols (t' t : LTable) : Prop :=
  t'.hasDate = t.hasDate ∧ t'.hasPair = t.hasPair ∧
  t'.hasSession = t.hasSession ∧ t'.hasEntryModel = t.hasEntryModel ∧
  t'.hasMultiEntry = t.hasMultiEntry ∧ t'.hasConfluence = t.hasConfluence ∧
  t'.hasResult = t.hasResult ∧ t'.hasClosedRR = t.hasClosedRR ∧
  t'.hasPnL = t.hasPnL ∧ t'.hasRating = t.hasRating ∧
  t'.hasRisk = t.hasRisk ∧ t'.hasDuration = t.hasDuration ∧
  t'.hasAccount = t.hasAccount

/-- A single-row table for exercising the load pipeline twice. -/
def rowIdem : LRow :=
  { baseLRow with date := Val.str "2024-02-03", entryModel := Val.str "Breakout" }

/-- The table holding `rowIdem`. -/
def tblIdem : LTable :=
  { emptyLTable with
    hasDate := true, hasEntryModel := true,
    rows := [rowIdem] }

/-- The canonical table built from `tblIdem`. -/
def uIdem : LTable := (load_live_df tblIdem).toOption.getD emptyLTable

/-- The table `load_live_df` assembles from the transformed rows. -/
def loadResult (t : LTable) (rows' : List LRow) : LTable :=
  { t with
    rows := rows'.filter (keepRow t),
    hasDayName := t.hasDate, hasHour := t.hasDate,
    hasInstrument := true, hasSessionNorm := true,
    hasModels := true, hasConfl := true, hasOutcome := true,
    hasStars := t.hasRating, hasRiskPct := t.hasRisk,
    hasDurationBin := t.hasDuration, hasAccountGroup := t.hasAccount }

/-- The row `rowTransform` assembles from the step results. -/
def transformedRow (t : LTable) (r : LRow) (i : Val) (m : List String)
    (o : String) (b : Val) : LRow :=
  { r with
    date := dateStep t r, closedRR := closedRRStep t r, pnl := pnlStep t r,
    duration := durationStep t r,
    dayName := dayNameStep t r, hour := hourStep t r,
    instrument := i,
    sessionNorm := sessionNormStep t r, outcome := Val.str o,
    stars := starsStep t r, riskPct := riskPctStep t r,
    durationBin := b,
    accountGroup := accountGroupStep t r,
    models := m, confl := conflStep t r }

/-! ## Theorems -/

/-- Claim C5, counterexample: the claim says the string "be" normalizes to
"BE", but `normalize_result_label` has no `"be"` entry (only "breakeven",
"break even" and "b/e") and returns the empty string on it. -/
theorem normalize_result_label_be_counterexample :
    normalize_result_label (Val.str "be") = "" ∧ ("" : String) ≠ "BE" := by
  constructor
  · decide
  · decide

/-- Claim C5 (amended): after trimming and lowercasing, "breakeven",
"break even" and "b/e" (but not "be") map to "BE"; "loss" maps to "LOSS";
any string matching none of the documented phrases maps to the empty
string. -/
theorem normalize_result_label_spec (s : String) :
    ((pyLower (pstrip s.data) = "breakeven".data ∨
      pyLower (pstrip s.data) = "break even".data ∨
      pyLower (pstrip s.data) = "b/e".data) →
      normalize_result_label (Val.str s) = "BE") ∧
    (pyLower (pstrip s.data) = "loss".data →
      normalize_result_label (Val.str s) = "LOSS") ∧
    (pyLower (pstrip s.data) ∉ documentedResultPhrases →
      normalize_result_label (Val.str s) = "") := by
  refine ⟨?_, ?_, ?_⟩
  · rintro (h | h | h) <;> rw [normalize_result_label] <;> rw [h] <;> decide
  · intro h
    rw [normalize_result_label, h]
    decide
  · intro h
    rw [normalize_result_label]
    split_ifs with h1 h2 h3 h4 h5
    · exact absurd (by rw [h1]; decide) h
    · exact absurd (by rw [h2]; decide) h
    · exact absurd (by rw [h3]; decide) h
    · have h4' : (pyLower (pstrip s.data) = "breakeven".data ∨
          pyLower (pstrip s.data) = "break even".data) ∨
          pyLower (pstrip s.data) = "b/e".data := by simpa using h4
      rcases h4' with (hx | hx) | hx <;> exact absurd (by rw [hx]; decide) h
    · exact absurd (by rw [h5]; decide) h
    · rfl

/-- Claim C5, witness: the amended theorem evaluated on concrete inputs. -/
theorem normalize_result_label_spec_witness :
    normalize_result_label (Val.str "  Break Even ") = "BE" ∧
    normalize_result_label (Val.str "LOSS") = "LOSS" ∧
    normalize_result_label (Val.str "be") = "" :=
  ⟨(normalize_result_label_spec "  Break Even ").1 (by decide),
   (normalize_result_label_spec "LOSS").2.1 (by decide),
   (normalize_result_label_spec "be").2.2 (by decide)⟩

/-- Reduction of a bind on a successful `Except` computation. -/
@[simp] theorem except_ok_bind {α β : Type} (a : α) (f : α → Except Unit β) :
    (Except.ok a >>= f : Except Unit β) = f a := rfl

/-- Reduction of a bind on a failed `Except` computation. -/
@[simp] theorem except_error_bind {α β : Type} (e : Unit) (f : α → Except Unit β) :
    (Except.error e >>= f : Except Unit β) = Except.error e := rfl

/-- Reduction of `pure` to `Except.ok`. -/
@[simp] theorem except_pure_eq {α : Type} (a : α) :
    (pure a : Except Unit α) = Except.ok a := rfl

/-- Claim C1: `classify_outcome_from_fields` resolves the outcome by the
ordered fallback chain: a result label of WIN/BE/LOSS wins outright;
otherwise the sign of a numeric `closed_rr`; otherwise the sign of a
numeric `pnl`; otherwise "Unknown".  The numeric fields carry the
pipeline's float-or-missing values (per the data model, `ClosedRR` and
`PnL` are float or null). -/
theorem classify_outcome_spec (r : Val) (c p : PyF) :
    (normalize_result_label r = "WIN" →
      classify_outcome_from_fields r (pyfToVal c) (pyfToVal p) = Except.ok "Win") ∧
    (normalize_result_label r = "BE" →
      classify_outcome_from_fields r (pyfToVal c) (pyfToVal p) = Except.ok "BE") ∧
    (normalize_result_label r = "LOSS" →
      classify_outcome_from_fields r (pyfToVal c) (pyfToVal p) = Except.ok "Loss") ∧
    (normalize_result_label r ≠ "WIN" → normalize_result_label r ≠ "BE" →
      normalize_result_label r ≠ "LOSS" →
      (∀ q, c = PyF.fin q →
        classify_outcome_from_fields r (pyfToVal c) (pyfToVal p) =
          Except.ok (if 0 < q then "Win" else if q = 0 then "BE" else "Loss")) ∧
      (∀ q, c = PyF.nan → p = PyF.fin q →
        classify_outcome_from_fields r (pyfToVal c) (pyfToVal p) =
          Except.ok (if 0 < q then "Win" else if q = 0 then "BE" else "Loss")) ∧
      (c = PyF.nan → p = PyF.nan →
        classify_outcome_from_fields r (pyfToVal c) (pyfToVal p) =
          Except.ok "Unknown")) := by
  refine ⟨?_, ?_, ?_, ?_⟩
  · intro h; simp [classify_outcome_from_fields, h]
  · intro h; simp [classify_outcome_from_fields, h]
  · intro h; simp [classify_outcome_from_fields, h]
  · intro h1 h2 h3
    refine ⟨?_, ?_, ?_⟩
    · rintro q rfl
      simp only [classify_outcome_from_fields, pyfToVal, pdIsna, tryFloat,
        h1, h2, h3, if_false, if_neg]
      by_cases hq : 0 < q
      · simp [h1, h2, h3, hq, gt_iff_lt]
      · by_cases hq0 : q = 0 <;>
          simp [h1, h2, h3, hq, hq0, gt_iff_lt, Except.bind]
    · rintro q rfl rfl
      by_cases hq : 0 < q
      · simp [classify_outcome_from_fields, pyfToVal, pdIsna, tryFloat,
          h1, h2, h3, hq, gt_iff_lt]
      · by_cases hq0 : q = 0 <;>
          simp [classify_outcome_from_fields, pyfToVal, pdIsna, tryFloat,
            h1, h2, h3, hq, hq0, gt_iff_lt]
    · rintro rfl rfl
      simp [classify_outcome_from_fields, pyfToVal, pdIsna, tryFloat, h1, h2, h3]

/-- Claim C1, witness: the four documented outcome-precedence examples,
by instantiating the chain theorem. -/
theorem classify_outcome_spec_witness :
    classify_outcome_from_fields (Val.str "Full TP") (pyfToVal PyF.nan)
      (pyfToVal PyF.nan) = Except.ok "Win" ∧
    classify_outcome_from_fields Val.none (pyfToVal (PyF.fin (-1)))
      (pyfToVal PyF.nan) = Except.ok "Loss" ∧
    classify_outcome_from_fields Val.none (pyfToVal PyF.nan)
      (pyfToVal (PyF.fin 0)) = Except.ok "BE" ∧
    classify_outcome_from_fields Val.none (pyfToVal PyF.nan)
      (pyfToVal PyF.nan) = Except.ok "Unknown" := by
  refine ⟨(classify_outcome_spec (Val.str "Full TP") PyF.nan PyF.nan).1 (by decide),
    ?_, ?_, ((classify_outcome_spec Val.none PyF.nan PyF.nan).2.2.2
      (by decide) (by decide) (by decide)).2.2 rfl rfl⟩
  · have h := ((classify_outcome_spec Val.none (PyF.fin (-1)) PyF.nan).2.2.2
      (by decide) (by decide) (by decide)).1 (-1) rfl
    rw [h, if_neg (by norm_num), if_neg (by norm_num)]
  · have h := ((classify_outcome_spec Val.none PyF.nan (PyF.fin 0)).2.2.2
      (by decide) (by decide) (by decide)).2.1 0 rfl rfl
    rw [h, if_neg (by norm_num), if_pos rfl]

/-- A rational whose hundredfold is an integer is unchanged by rounding to
two decimals. -/
theorem round2_eq_self (q : ℚ) (k : ℤ) (h : q * 100 = (k : ℚ)) : round2 q = q := by
  unfold round2
  rw [h, round_intCast]
  have hq : (k : ℚ) = q * 100 := h.symm
  rw [hq]; ring

/-- The hundredfold of a rounded value is an integer. -/
theorem round2_mul100 (q : ℚ) : round2 q * 100 = ((round (q * 100) : ℤ) : ℚ) := by
  unfold round2; field_simp

/-- Claim C2: with zero trades all three percentages are zero; otherwise
each percentage is the count's share rounded to two decimals, except that
the rounding drift from 100 is added to the largest rounded component, and
the three returned percentages always sum to exactly 100. -/
theorem percentages_sum_spec (wins bes losses : ℕ) :
    (wins + bes + losses = 0 →
      percentages_sum_to_100 wins bes losses = ⟨0, 0, 0⟩) ∧
    (wins + bes + losses ≠ 0 →
      (percentages_sum_to_100 wins bes losses).winP +
        (percentages_sum_to_100 wins bes losses).beP +
        (percentages_sum_to_100 wins bes losses).lossP = 100 ∧
      (let T : ℚ := ((wins + bes + losses : ℕ) : ℚ)
       let w := round2 ((wins : ℚ) / T * 100)
       let b := round2 ((bes : ℚ) / T * 100)
       let l := round2 ((losses : ℚ) / T * 100)
       let drift := 100 - (w + b + l)
       (drift = 0 ∧ percentages_sum_to_100 wins bes losses = ⟨w, b, l⟩) ∨
       (drift ≠ 0 ∧
         ((w ≥ b ∧ w ≥ l ∧
            percentages_sum_to_100 wins bes losses = ⟨w + drift, b, l⟩) ∨
          (b ≥ w ∧ b ≥ l ∧
            percentages_sum_to_100 wins bes losses = ⟨w, b + drift, l⟩) ∨
          (l ≥ w ∧ l ≥ b ∧
            percentages_sum_to_100 wins bes losses = ⟨w, b, l + drift⟩))))) := by
  constructor
  · intro h
    unfold percentages_sum_to_100
    rw [if_pos h]
  · intro h
    have hT : (wins + bes + losses : ℕ) ≠ 0 := h
    set T : ℚ := ((wins + bes + losses : ℕ) : ℚ) with hTdef
    set w := round2 ((wins : ℚ) / T * 100) with hwdef
    set b := round2 ((bes : ℚ) / T * 100) with hbdef
    set l := round2 ((losses : ℚ) / T * 100) with hldef
    have hkw : w * 100 = ((round ((wins : ℚ) / T * 100 * 100) : ℤ) : ℚ) := round2_mul100 _
    have hkb : b * 100 = ((round ((bes : ℚ) / T * 100 * 100) : ℤ) : ℚ) := round2_mul100 _
    have hkl : l * 100 = ((round ((losses : ℚ) / T * 100 * 100) : ℤ) : ℚ) := round2_mul100 _
    have hdrift : round2 (100 - (w + b + l)) = 100 - (w + b + l) := by
      refine round2_eq_self _ (10000 - (round ((wins : ℚ) / T * 100 * 100) +
        round ((bes : ℚ) / T * 100 * 100) + round ((losses : ℚ) / T * 100 * 100))) ?_
      push_cast
      nlinarith [hkw, hkb, hkl]
    unfold percentages_sum_to_100
    rw [if_neg hT]
    simp only [← hwdef, ← hbdef, ← hldef, hdrift]
    by_cases hz : (100 : ℚ) - (w + b + l) = 0
    · rw [if_neg (by simpa using hz)]
      constructor
      · simpa using by linarith [hz]
      · exact Or.inl ⟨hz, rfl⟩
    · rw [if_pos (by simpa using hz)]
      by_cases h1 : w ≥ b ∧ w ≥ l
      · rw [if_pos h1]
        have hr : round2 (w + (100 - (w + b + l))) = w + (100 - (w + b + l)) := by
          refine round2_eq_self _ (10000 - (round ((bes : ℚ) / T * 100 * 100) +
            round ((losses : ℚ) / T * 100 * 100))) ?_
          push_cast
          nlinarith [hkb, hkl]
        rw [hr]
        refine ⟨by ring, Or.inr ⟨hz, Or.inl ⟨h1.1, h1.2, rfl⟩⟩⟩
      · rw [if_neg h1]
        by_cases h2 : b ≥ w ∧ b ≥ l
        · rw [if_pos h2]
          have hr : round2 (b + (100 - (w + b + l))) = b + (100 - (w + b + l)) := by
            refine round2_eq_self _ (10000 - (round ((wins : ℚ) / T * 100 * 100) +
              round ((losses : ℚ) / T * 100 * 100))) ?_
            push_cast
            nlinarith [hkw, hkl]
          rw [hr]
          refine ⟨by ring, Or.inr ⟨hz, Or.inr (Or.inl ⟨h2.1, h2.2, rfl⟩)⟩⟩
        · rw [if_neg h2]
          have hr : round2 (l + (100 - (w + b + l))) = l + (100 - (w + b + l)) := by
            refine round2_eq_self _ (10000 - (round ((wins : ℚ) / T * 100 * 100) +
              round ((bes : ℚ) / T * 100 * 100))) ?_
            push_cast
            nlinarith [hkw, hkb]
          rw [hr]
          push_neg at h1 h2
          have hlw : l ≥ w ∧ l ≥ b := by
            constructor <;> by_contra hc <;> push_neg at hc
            · rcases le_or_lt b w with hbw | hbw
              · exact absurd (h1 (by linarith)) (by push_neg; linarith)
              · exact absurd (h2 (by linarith)) (by push_neg; linarith)
            · rcases le_or_lt w b with hwb | hwb
              · exact absurd (h2 hwb) (by push_neg; linarith)
              · exact absurd (h1 (by linarith)) (by push_neg; linarith)
          refine ⟨by ring, Or.inr ⟨hz, Or.inr (Or.inr ⟨hlw.1, hlw.2, rfl⟩)⟩⟩

/-- Claim C2, witness: one win, one break-even, one loss; the three
thirds round to 33.33 each and the 0.01 drift lands on the win share, so
the results sum to exactly 100. -/
theorem percentages_sum_spec_witness :
    (percentages_sum_to_100 1 1 1).winP + (percentages_sum_to_100 1 1 1).beP +
      (percentages_sum_to_100 1 1 1).lossP = 100 :=
  ((percentages_sum_spec 1 1 1).2 (by decide)).1

/-- Claim C7: loading mapping profiles never fails as a whole — the loader
is a total function returning exactly the profiles of the files that
decode (BOM-tolerantly) to a JSON object, each named by its file stem;
every malformed or unreadable file is skipped and the rest are kept. -/
theorem load_maps_skips_invalid (files : List FileM) :
    _load_maps files = files.filterMap validProfileOf := by
  induction files with
  | nil => rfl
  | cons f rest ih =>
      rcases f with ⟨stem, utf8, utf8sig⟩
      cases utf8 with
      | ok j => cases j <;> simp [_load_maps, validProfileOf, ih]
      | jsonError =>
          cases utf8sig with
          | ok j => cases j <;> simp [_load_maps, validProfileOf, ih]
          | jsonError => simp [_load_maps, validProfileOf, ih]
          | ioError => simp [_load_maps, validProfileOf, ih]
      | ioError => simp [_load_maps, validProfileOf, ih]

/-- Splitting a list by a decidable predicate preserves its length. -/
theorem length_filter_split {α : Type} (p : α → Prop) [DecidablePred p]
    (l : List α) :
    (l.filter (fun x => p x)).length + (l.filter (fun x => ¬ p x)).length
      = l.length := by
  induction l with
  | nil => rfl
  | cons a t ih =>
      by_cases h : p a <;> simp [List.filter_cons, h, ← ih] <;> omega

/-- Filtering for one key commutes with removing a different key. -/
theorem filter_key_of_ne {α K : Type} [DecidableEq K] (f : α → K)
    (k k' : K) (hne : k' ≠ k) (l : List α) :
    l.filter (fun x => f x = k') =
      (l.filter (fun x => ¬ f x = k)).filter (fun x => f x = k') := by
  rw [List.filter_comm]
  refine (List.filter_eq_self.mpr ?_).symm
  intro x hx
  have hk' : f x = k' := by simpa using (List.mem_filter.mp hx).2
  simp [hk']
  exact hne

/-- Grouping by a covering list of distinct keys partitions a list: the
group sizes sum to the list's length. -/
theorem length_sum_key_groups {α K : Type} [DecidableEq K] (f : α → K) :
    ∀ (ks : List K) (l : List α), ks.Nodup → (∀ x ∈ l, f x ∈ ks) →
      (ks.map (fun k => (l.filter (fun x => f x = k)).length)).sum = l.length
  | [], l, _, hcov => by
      have hl : l = [] := List.eq_nil_iff_forall_not_mem.mpr
        (fun x hx => by simpa using hcov x hx)
      simp [hl]
  | k :: ks, l, hnd, hcov => by
      have hk : k ∉ ks := (List.nodup_cons.mp hnd).1
      have hnd' : ks.Nodup := (List.nodup_cons.mp hnd).2
      have hcov' : ∀ x ∈ l.filter (fun x => ¬ f x = k), f x ∈ ks := by
        intro x hx
        have hxm := List.mem_filter.mp hx
        have hxk : ¬ f x = k := by simpa using hxm.2
        rcases List.mem_cons.mp (hcov x hxm.1) with he | hm
        · exact absurd he hxk
        · exact hm
      have ih := length_sum_key_groups f ks (l.filter (fun x => ¬ f x = k)) hnd' hcov'
      have hmapeq : ks.map (fun k' => (l.filter (fun x => f x = k')).length) =
          ks.map (fun k' =>
            ((l.filter (fun x => ¬ f x = k)).filter (fun x => f x = k')).length) := by
        refine List.map_congr_left ?_
        intro k' hk'
        rw [← filter_key_of_ne f k k' (fun e => hk (e ▸ hk')) l]
      rw [List.map_cons, List.sum_cons, hmapeq, ih]
      exact length_filter_split (fun x => f x = k) l

/-- Columns are unchanged by `_normalize_df`. -/
theorem normalize_df_cols (t : MTable) : (normalize_df t).cols = t.cols := by
  unfold normalize_df; split <;> rfl

/-- Row count is unchanged by `_normalize_df`. -/
theorem normalize_df_rows_length (t : MTable) :
    (normalize_df t).rows.length = t.rows.length := by
  unfold normalize_df; split <;> simp

/-- The size of one output group. -/
theorem mkGroupRow_trades (t : MTable) (by_ : List String) (k : List Val) :
    (mkGroupRow t by_ k).trades =
      ((validRows t by_).filter (fun r => groupKey by_ r = k)).length := rfl

/-- Claim C10: `group_win_rates` silently drops every row with a missing
value in a grouping column — no output group carries a missing key, the
group sizes sum to the number of rows whose grouping keys are all present,
and that sum never exceeds (and can be less than) the number of input
rows.  A nonempty grouping-column list is assumed (pandas raises on an
empty one). -/
theorem group_win_rates_null_keys (t : MTable) (by_ : List String)
    (_hby : by_ ≠ []) :
    (∀ g ∈ group_win_rates t by_, ∀ kv ∈ g.keys, kv.2 ≠ Val.none) ∧
    (t.rows ≠ [] → t.cols.contains COL_RESULT →
      sumTrades (group_win_rates t by_) = (validRows t by_).length) ∧
    sumTrades (group_win_rates t by_) ≤ t.rows.length := by
  have hsum : t.rows ≠ [] → t.cols.contains COL_RESULT →
      sumTrades (group_win_rates t by_) = (validRows t by_).length := by
    intro hrows hcols
    rw [group_win_rates, if_neg (by simpa using hrows),
      if_pos (by rw [normalize_df_cols]; exact hcols)]
    unfold sumTrades
    rw [List.map_map]
    have hfun : (GroupRow.trades ∘ mkGroupRow t by_) = fun k =>
        ((validRows t by_).filter (fun r => groupKey by_ r = k)).length := rfl
    rw [hfun]
    exact length_sum_key_groups (groupKey by_) _ _ (List.nodup_dedup _)
      (fun r hr => List.mem_dedup.mpr (List.mem_map.mpr ⟨r, hr, rfl⟩))
  refine ⟨?_, hsum, ?_⟩
  · intro g hg kv hkv
    rw [group_win_rates] at hg
    by_cases he : t.rows.isEmpty
    · rw [if_pos he] at hg; simp at hg
    · rw [if_neg he] at hg
      by_cases hc : (normalize_df t).cols.contains COL_RESULT
      · rw [if_pos hc] at hg
        simp only [List.mem_map] at hg
        obtain ⟨k, hk, hgk⟩ := hg
        have hkmem := List.mem_dedup.mp hk
        simp only [List.mem_map] at hkmem
        obtain ⟨r, hr, hrk⟩ := hkmem
        have hrv := (List.mem_filter.mp hr).2
        have hkv2 : kv.2 ∈ k := by
          have hzip : kv ∈ by_.zip k := by
            rw [← hgk] at hkv; exact hkv
          exact (List.of_mem_zip hzip).2
        rw [← hrk] at hkv2
        have hall : ∀ x ∈ groupKey by_ r, isnaVal x = false := by simpa using hrv
        have := hall kv.2 hkv2
        intro hnone
        simp [isnaVal, hnone] at this
      · rw [if_neg hc] at hg; simp at hg
  · by_cases hrows : t.rows = []
    · rw [group_win_rates, if_pos (by simpa using hrows)]
      simp [sumTrades]
    · by_cases hc : t.cols.contains COL_RESULT
      · rw [hsum hrows hc]
        calc (validRows t by_).length
            ≤ (normalize_df t).rows.length := List.length_filter_le _ _
          _ = t.rows.length := normalize_df_rows_length t
      · rw [group_win_rates, if_neg (by simpa using hrows),
          if_neg (by rw [normalize_df_cols]; simpa using hc)]
        simp [sumTrades]

/-- Claim C10, witness: on `tGrp` grouped by `Session`, the null-keyed
third row is dropped — the group sizes sum to 2 while the table has 3
rows, and no group key is missing. -/
theorem group_win_rates_null_keys_witness :
    sumTrades (group_win_rates tGrp ["Session"]) = 2 ∧
    tGrp.rows.length = 3 ∧
    (∀ g ∈ group_win_rates tGrp ["Session"], ∀ kv ∈ g.keys, kv.2 ≠ Val.none) := by
  refine ⟨?_, by decide, (group_win_rates_null_keys tGrp ["Session"] (by decide)).1⟩
  rw [(group_win_rates_null_keys tGrp ["Session"] (by decide)).2.1
    (by decide) (by decide)]
  decide

/-- Any profile produced by the best-score fold is either from the list or
was the seed. -/
theorem chooseBestAux_sound (headers : List String) :
    ∀ (maps : List MapProfile) (acc : Option MapProfile) (m : MapProfile),
      chooseBestAux headers acc maps = some m → m ∈ maps ∨ acc = some m
  | [], acc, m, h => Or.inr (by simpa [chooseBestAux] using h)
  | hd :: tl, acc, m, h => by
      cases acc with
      | none =>
          rcases chooseBestAux_sound headers tl (some hd) m h with hm | hm
          · exact Or.inl (List.mem_cons_of_mem _ hm)
          · injection hm with e
            exact Or.inl (by rw [← e]; exact List.mem_cons_self hd tl)
      | some m0 =>
          rcases chooseBestAux_sound headers tl _ m h with hm | hm
          · exact Or.inl (List.mem_cons_of_mem _ hm)
          · by_cases hgt : _score headers hd > _score headers m0
            · rw [if_pos hgt] at hm
              injection hm with e
              exact Or.inl (e ▸ List.mem_cons_self hd tl)
            · rw [if_neg hgt] at hm
              exact Or.inr hm

/-- A profile chosen automatically comes from the list. -/
theorem chooseAuto_mem (headers : List String) (maps : List MapProfile)
    (minScore : ℚ) (m : MapProfile) (h : chooseAuto headers maps minScore = some m) :
    m ∈ maps := by
  unfold chooseAuto at h
  cases hb : chooseBestAux headers Option.none maps with
  | none => rw [hb] at h; exact absurd h (by simp)
  | some m' =>
      rw [hb] at h
      dsimp only at h
      by_cases hge : _score headers m' ≥ minScore
      · rw [if_pos hge] at h
        injection h with e
        rcases chooseBestAux_sound headers maps Option.none m' hb with hm | hm
        · exact e ▸ hm
        · exact absurd hm (by simp)
      · rw [if_neg hge] at h; exact absurd h (by simp)

/-- A profile chosen automatically meets the minimum score. -/
theorem chooseAuto_ge (headers : List String) (maps : List MapProfile)
    (minScore : ℚ) (m : MapProfile) (h : chooseAuto headers maps minScore = some m) :
    _score headers m ≥ minScore := by
  unfold chooseAuto at h
  cases hb : chooseBestAux headers Option.none maps with
  | none => rw [hb] at h; exact absurd h (by simp)
  | some m' =>
      rw [hb] at h
      dsimp only at h
      by_cases hge : _score headers m' ≥ minScore
      · rw [if_pos hge] at h
        injection h with e
        exact e ▸ hge
      · rw [if_neg hge] at h; exact absurd h (by simp)

/-- Claim C6: the profile score is the case-insensitive Jaccard similarity
between table headers and declared source columns, so it lies in `[0,1]`;
headers exactly matching the declared source columns (up to case and
surrounding whitespace) score 1; completely disjoint headers score 0;
profiles all scoring below the 0.15 threshold are never auto-selected —
the chooser returns null and `adapt_df` passes the table through
unchanged. -/
theorem template_score_spec :
    (∀ (headers : List String) (m : MapProfile),
      0 ≤ _score headers m ∧ _score headers m ≤ 1) ∧
    (∀ (headers : List String) (m : MapProfile), m.columns ≠ [] →
      (headers.map normHdr).toFinset =
        ((m.columns.map Prod.fst).map normHdr).toFinset →
      _score headers m = 1) ∧
    (∀ (headers : List String) (m : MapProfile),
      (headers.map normHdr).toFinset ∩
        ((m.columns.map Prod.fst).map normHdr).toFinset = ∅ →
      _score headers m = 0) ∧
    (∀ (t : DfTable) (maps : List MapProfile),
      (∀ m ∈ maps, _score t.cols m < 3 / 20) →
      _choose t.cols maps (3 / 20) Option.none = Option.none ∧
      adapt_df t maps Option.none = (t, Option.none)) ∧
    (∀ (t : DfTable) (maps : List MapProfile) (m : MapProfile),
      m ∈ maps → _score t.cols m = 0 →
      _choose t.cols maps (3 / 20) Option.none ≠ some m) := by
  have hchoose : ∀ (headers : List String) (maps : List MapProfile),
      (∀ m ∈ maps, _score headers m < 3 / 20) →
      _choose headers maps (3 / 20) Option.none = Option.none := by
    intro headers maps hlt
    show chooseAuto headers maps (3 / 20) = Option.none
    cases hca : chooseAuto headers maps (3 / 20) with
    | none => rfl
    | some m =>
        have h1 := chooseAuto_ge headers maps (3 / 20) m hca
        have h2 := hlt m (chooseAuto_mem headers maps (3 / 20) m hca)
        linarith
  refine ⟨?_, ?_, ?_, ?_, ?_⟩
  · intro headers m
    unfold _score
    split_ifs with h1 h2
    · norm_num
    · norm_num
    · constructor
      · positivity
      · rw [div_le_one (by positivity)]
        refine Nat.cast_le.mpr (Finset.card_le_card ?_)
        exact Finset.inter_subset_union
  · intro headers m hcols heq
    have hsrcne : ((m.columns.map Prod.fst).map normHdr) ≠ [] := by
      simpa using hcols
    have hsrc : ((m.columns.map Prod.fst).map normHdr).toFinset ≠ ∅ := by
      intro hempty
      exact hsrcne (by simpa using hempty)
    unfold _score
    rw [if_neg hsrc, heq]
    simp only [Finset.union_self, Finset.inter_self]
    rw [if_neg (by
      intro hc
      exact hsrc (Finset.card_eq_zero.mp hc))]
    rw [div_self]
    exact Nat.cast_ne_zero.mpr (fun hc => hsrc (Finset.card_eq_zero.mp hc))
  · intro headers m hdisj
    unfold _score
    split_ifs with h1 h2
    · rfl
    · rfl
    · rw [hdisj]
      simp
  · intro t maps hlt
    refine ⟨hchoose t.cols maps hlt, ?_⟩
    unfold adapt_df
    by_cases he : t.rows.isEmpty || t.cols.isEmpty
    · rw [if_pos he]
    · rw [if_neg he, hchoose t.cols maps hlt]
  · intro t maps m hm h0 heq
    have := chooseAuto_ge t.cols maps (3 / 20) m heq
    rw [h0] at this
    linarith

/-- Claim C6, witness: exactly matching headers score 1, disjoint headers
score 0, and with only the disjoint profile on offer the chooser returns
null and the table passes through unchanged. -/
theorem template_score_spec_witness :
    _score ["Date", "pair"] mExact = 1 ∧
    _score ["Date", "pair"] mDisj = 0 ∧
    _choose tHdr.cols [mDisj] (3 / 20) Option.none = Option.none ∧
    adapt_df tHdr [mDisj] Option.none = (tHdr, Option.none) := by
  have h0 : _score ["Date", "pair"] mDisj = 0 :=
    template_score_spec.2.2.1 ["Date", "pair"] mDisj (by decide)
  have hcols : tHdr.cols = ["Date", "pair"] := rfl
  have hlt : ∀ m ∈ [mDisj], _score tHdr.cols m < 3 / 20 := by
    intro m hm
    have hmd : m = mDisj := by simpa using hm
    rw [hmd, hcols, h0]
    norm_num
  obtain ⟨hc, ha⟩ := template_score_spec.2.2.2.1 tHdr [mDisj] hlt
  exact ⟨template_score_spec.2.1 ["Date", "pair"] mExact (by decide) (by decide),
    h0, hc, ha⟩

/-- Claim C8, counterexample: the claim says every listed field parser
never raises on arbitrary raw cell values, but `build_duration_bin`
applies `float()` to its input and raises on a non-numeric string, and
`infer_instrument` evaluates `pd.isna` truthiness, which raises on a
two-element list. -/
theorem field_parser_raises_counterexample :
    build_duration_bin (Val.str "abc") = Except.error () ∧
    infer_instrument (Val.list ["XAU", "GOLD"]) = Except.error () := by
  constructor <;> decide

/-- Claim C8 (amended): `normalize_session`, `parse_closed_rr`,
`normalize_result_label` and `normalize_account_group` are total on all
raw cell values; `infer_instrument` never raises on scalar values (it
raises on most lists via `pd.isna` truthiness); `build_duration_bin`
never raises on numeric or missing values (it raises on non-numeric
strings via `float()`); unparsable or empty input resolves to the
documented sentinel (missing / empty string / "Unknown"). -/
theorem field_parsers_total_spec :
    (∀ v : Val, isScalarVal v = true → ∃ s, infer_instrument v = Except.ok s) ∧
    (infer_instrument Val.none = Except.ok "Unknown") ∧
    (normalize_session Val.none = Val.none ∧
      normalize_session (Val.str "") = Val.none ∧
      normalize_session (Val.str " nan ") = Val.none) ∧
    (parse_closed_rr Val.none = PyF.nan ∧ parse_closed_rr (Val.str "") = PyF.nan) ∧
    (∀ v : Val, (∀ s, v ≠ Val.str s) → normalize_result_label v = "") ∧
    (∀ v : Val, isNumericOrNull v = true → ∃ r, build_duration_bin v = Except.ok r) ∧
    (build_duration_bin Val.none = Except.ok Val.none) ∧
    (∀ v : Val, (∀ s, v ≠ Val.str s) → normalize_account_group v = Val.none) ∧
    (∀ s : String, (pstrip s.data).isEmpty → normalize_account_group (Val.str s) = Val.none) := by
  refine ⟨?_, by decide, ⟨by decide, by decide, by decide⟩, ⟨by decide, by decide⟩,
    ?_, ?_, by decide, ?_, ?_⟩
  · intro v hv
    cases v with
    | list l => simp [isScalarVal] at hv
    | none =>
        exact ⟨"Unknown", by decide⟩
    | num q =>
        simp only [infer_instrument, pdIsna, except_ok_bind, except_pure_eq]
        split_ifs <;> exact ⟨_, rfl⟩
    | str s =>
        simp only [infer_instrument, pdIsna, except_ok_bind, except_pure_eq]
        split_ifs <;> exact ⟨_, rfl⟩
    | bool b =>
        simp only [infer_instrument, pdIsna, except_ok_bind, except_pure_eq]
        split_ifs <;> exact ⟨_, rfl⟩
    | date y m d =>
        simp only [infer_instrument, pdIsna, except_ok_bind, except_pure_eq]
        split_ifs <;> exact ⟨_, rfl⟩
  · intro v hv
    cases v with
    | str s => exact absurd rfl (hv s)
    | _ => rfl
  · intro v hv
    cases v with
    | none => exact ⟨Val.none, by decide⟩
    | num q =>
        simp only [build_duration_bin, pdIsna, tryFloat, except_ok_bind, except_pure_eq]
        split_ifs <;> exact ⟨_, rfl⟩
    | bool b =>
        simp only [build_duration_bin, pdIsna, tryFloat, except_ok_bind, except_pure_eq]
        split_ifs <;> exact ⟨_, rfl⟩
    | str s => simp [isNumericOrNull] at hv
    | list l => simp [isNumericOrNull] at hv
    | date y m d => simp [isNumericOrNull] at hv
  · intro v hv
    cases v with
    | str s => exact absurd rfl (hv s)
    | _ => rfl
  · intro s hs
    simp [normalize_account_group, hs]

/-- Claim C8, witness: the amended totality theorem evaluated on concrete
inputs of each shape. -/
theorem field_parsers_total_spec_witness :
    (∃ s, infer_instrument (Val.str "XAU/USD") = Except.ok s) ∧
    (∃ r, build_duration_bin (Val.num 45) = Except.ok r) ∧
    normalize_result_label (Val.num 3) = "" ∧
    normalize_account_group (Val.bool true) = Val.none ∧
    normalize_account_group (Val.str "   ") = Val.none :=
  ⟨field_parsers_total_spec.1 (Val.str "XAU/USD") (by decide),
   field_parsers_total_spec.2.2.2.2.2.1 (Val.num 45) (by decide),
   field_parsers_total_spec.2.2.2.2.1 (Val.num 3) (fun s h => Val.noConfusion h),
   field_parsers_total_spec.2.2.2.2.2.2.2.1 (Val.bool true) (fun s h => Val.noConfusion h),
   field_parsers_total_spec.2.2.2.2.2.2.2.2 "   " (by decide)⟩

/-- Claim C4, counterexample: on `tblNullResult` the canonical table keeps
its single row even though the row has no trade signal in the claim's
sense — the code's `astype(str)` turns the missing `Result` into the
nonempty text "nan", so the code's signal test passes where the claim's
fails. -/
theorem load_retention_counterexample :
    (load_live_df tblNullResult).map
      (fun u => u.rows.map (claimRetained tblNullResult)) = Except.ok [false] := by
  decide

/-- Claim C4 (amended): every row of the canonical table has a resolved
date and a retained signal in the code's sense — resolved `PnL`, resolved
`Closed RR`, or a `Result` / `Entry Model` cell whose stringification
strips to nonempty text, where a missing cell stringifies to "nan" and
therefore counts as a signal; rows failing this test are dropped
entirely. -/
theorem load_retention_spec (t u : LTable) (h : load_live_df t = Except.ok u) :
    (∀ r ∈ u.rows, hasDateRow t r = true ∧ hasSignalRow t r = true) ∧
    (∃ rows', t.rows.mapM (rowTransform t) = Except.ok rows' ∧
      u.rows = rows'.filter (keepRow t)) := by
  unfold load_live_df at h
  cases hm : t.rows.mapM (rowTransform t) with
  | error e => rw [hm] at h; exact absurd h (by simp)
  | ok rows' =>
      rw [hm] at h
      simp only [except_ok_bind, except_pure_eq] at h
      injection h with h
      have hu : u.rows = rows'.filter (keepRow t) := by rw [← h]
      refine ⟨?_, rows', rfl, hu⟩
      intro r hr
      rw [hu] at hr
      have hk := List.of_mem_filter hr
      have hk' : keepRow t r = true := by simpa using hk
      unfold keepRow at hk'
      simp only [Bool.and_eq_true] at hk'
      exact hk' 

/-- Claim C4, witness: the amended theorem on the `Breakout` table — its
row survives with date and signal — plus the claim's other example: the
null-date, no-signal row is excluded. -/
theorem load_retention_spec_witness :
    (∀ r ∈ uBreakout.rows,
      hasDateRow tblBreakout r = true ∧ hasSignalRow tblBreakout r = true) ∧
    uBreakout.rows.length = 1 ∧
    (load_live_df tblNoDate).map (fun u => u.rows.length) = Except.ok 0 :=
  ⟨(load_retention_spec tblBreakout uBreakout (by decide)).1, by decide, by decide⟩

/-! ## Decimal numerals and the range-parse theorem (claim C3) -/

/-- Digit characters are digits. -/
theorem digitChar_isDigit (d : ℕ) (h : d < 10) : (digitChar d).isDigit = true := by
  interval_cases d <;> decide

/-- Digit characters decode to their digit. -/
theorem digitChar_toNat (d : ℕ) (h : d < 10) : (digitChar d).toNat - 48 = d := by
  interval_cases d <;> decide

/-- Digit characters are not signs, dots, spaces or separator starts. -/
theorem digitChar_props (d : ℕ) (h : d < 10) :
    digitChar d ≠ '+' ∧ digitChar d ≠ '-' ∧ digitChar d ≠ '.' ∧
    pyIsSpace (digitChar d) = false ∧ isSepStart (digitChar d) = false := by
  interval_cases d <;> decide

/-- Taking while a predicate holds over a prefix that wholly satisfies it. -/
theorem takeWhile_append_all {p : Char → Bool} :
    ∀ (l r : List Char), (∀ c ∈ l, p c = true) →
      (l ++ r).takeWhile p = l ++ r.takeWhile p
  | [], r, _ => rfl
  | c :: l, r, h => by
      have hc : p c = true := h c (List.mem_cons_self c l)
      simp only [List.cons_append, List.takeWhile_cons, hc, if_true]
      rw [takeWhile_append_all l r (fun x hx => h x (List.mem_cons_of_mem c hx))]

/-- Dropping while a predicate holds over a prefix that wholly satisfies it. -/
theorem dropWhile_append_all {p : Char → Bool} :
    ∀ (l r : List Char), (∀ c ∈ l, p c = true) →
      (l ++ r).dropWhile p = r.dropWhile p
  | [], r, _ => rfl
  | c :: l, r, h => by
      have hc : p c = true := h c (List.mem_cons_self c l)
      simp only [List.cons_append, List.dropWhile_cons, hc, if_true]
      exact dropWhile_append_all l r (fun x hx => h x (List.mem_cons_of_mem c hx))

/-- Decoding a rendered digit list gives its value. -/
theorem digitsValN_map (ds : List ℕ) (h : ∀ d ∈ ds, d < 10) :
    digitsValN (ds.map digitChar) = dval ds := by
  unfold digitsValN dval
  suffices hgen : ∀ (ds : List ℕ) (acc : ℕ), (∀ d ∈ ds, d < 10) →
      (ds.map digitChar).foldl (fun a c => 10 * a + (c.toNat - 48)) acc =
      ds.foldl (fun a d => 10 * a + d) acc by
    exact hgen ds 0 h
  intro ds
  induction ds with
  | nil => intro acc _; rfl
  | cons d t ih =>
      intro acc hbound
      simp only [List.map_cons, List.foldl_cons]
      rw [digitChar_toNat d (hbound d (List.mem_cons_self d t))]
      exact ih _ (fun x hx => hbound x (List.mem_cons_of_mem d hx))

/-- Rendered digit characters satisfy `isDigit`. -/
theorem map_digitChar_isDigit (ds : List ℕ) (h : ∀ d ∈ ds, d < 10) :
    ∀ c ∈ ds.map digitChar, c.isDigit = true := by
  intro c hc
  obtain ⟨d, hd, rfl⟩ := List.mem_map.mp hc
  exact digitChar_isDigit d (h d hd)

/-- The body parser on a rendered numeral body followed by text that can
start neither a digit run nor a fraction. -/
theorem parseNumCore_render (neg : Bool) (n : Numeral) (hip : n.ip ≠ [])
    (hipd : ∀ d ∈ n.ip, d < 10)
    (hfp : ∀ fs, n.fp = some fs → fs ≠ [] ∧ ∀ d ∈ fs, d < 10)
    (rest : List Char)
    (hrest : rest = [] ∨ ∃ c rest2, rest = c :: rest2 ∧ c.isDigit = false ∧ c ≠ '.') :
    parseNumCore neg (renderBody n ++ rest) =
      some ((if neg then -(bodyVal n) else bodyVal n), rest) := by
  obtain ⟨sg, ip, fp⟩ := n
  cases ip with
  | nil => exact absurd rfl hip
  | cons d ds =>
      simp only at hipd hfp ⊢
      have hd : d < 10 := hipd d (List.mem_cons_self d ds)
      have hdig : ∀ c ∈ (d :: ds).map digitChar, c.isDigit = true :=
        map_digitChar_isDigit _ hipd
      have htakeRest : rest.takeWhile Char.isDigit = [] := by
        rcases hrest with rfl | ⟨c, rest2, rfl, hcd, _⟩
        · rfl
        · simp [List.takeWhile_cons, hcd]
      have hdropRest : rest.dropWhile Char.isDigit = rest := by
        rcases hrest with rfl | ⟨c, rest2, rfl, hcd, _⟩
        · rfl
        · simp [List.dropWhile_cons, hcd]
      have hbody : renderBody ⟨sg, d :: ds, fp⟩ ++ rest =
          (d :: ds).map digitChar ++ (fracChars fp ++ rest) := by
        simp [renderBody, List.append_assoc]
      rw [hbody]
      have htake1 : (((d :: ds).map digitChar) ++ (fracChars fp ++ rest)).takeWhile
          Char.isDigit = (d :: ds).map digitChar ++
            (fracChars fp ++ rest).takeWhile Char.isDigit :=
        takeWhile_append_all _ _ hdig
      have hdrop1 : (((d :: ds).map digitChar) ++ (fracChars fp ++ rest)).dropWhile
          Char.isDigit = (fracChars fp ++ rest).dropWhile Char.isDigit :=
        dropWhile_append_all _ _ hdig
      cases fp with
      | none =>
          simp only [fracChars, List.nil_append] at htake1 hdrop1 ⊢
          rcases hrest with rfl | ⟨c, rest2, hrc, hcd, hcdot⟩
          · rw [show ((d :: ds).map digitChar ++ ([] : List Char)) =
                digitChar d :: ds.map digitChar by simp]
            rw [parseNumCore]
            simp only [digitChar_isDigit d hd, if_true]
            rw [show (digitChar d :: ds.map digitChar).dropWhile Char.isDigit = [] by
              have := hdrop1
              simpa using this]
            rw [show (digitChar d :: ds.map digitChar).takeWhile Char.isDigit =
                (d :: ds).map digitChar by
              have := htake1
              simpa using this]
            rw [digitsValN_map _ hipd]
            simp [bodyVal]
          · subst hrc
            rw [show ((d :: ds).map digitChar ++ (c :: rest2)) =
                digitChar d :: (ds.map digitChar ++ (c :: rest2)) by simp]
            rw [parseNumCore]
            simp only [digitChar_isDigit d hd, if_true]
            rw [show (digitChar d :: (ds.map digitChar ++ (c :: rest2))).dropWhile
                Char.isDigit = c :: rest2 by
              have := hdrop1
              simpa [List.dropWhile_cons, hcd] using this]
            simp only [hcdot, if_false]
            rw [show (digitChar d :: (ds.map digitChar ++ (c :: rest2))).takeWhile
                Char.isDigit = (d :: ds).map digitChar by
              have := htake1
              simpa [List.takeWhile_cons, hcd] using this]
            rw [digitsValN_map _ hipd]
            simp [bodyVal]
      | some fs =>
          obtain ⟨hfsne, hfsd⟩ := hfp fs rfl
          cases fs with
          | nil => exact absurd rfl hfsne
          | cons f fs2 =>
              have hf : f < 10 := hfsd f (List.mem_cons_self f fs2)
              simp only [fracChars] at htake1 hdrop1 ⊢
              rw [show ((d :: ds).map digitChar ++
                  (('.' :: (f :: fs2).map digitChar) ++ rest)) =
                  digitChar d :: (ds.map digitChar ++
                    ('.' :: ((f :: fs2).map digitChar ++ rest))) by simp]
              rw [parseNumCore]
              simp only [digitChar_isDigit d hd, if_true]
              have hdropdot : ('.' :: ((f :: fs2).map digitChar ++ rest)).dropWhile
                  Char.isDigit = '.' :: ((f :: fs2).map digitChar ++ rest) := by
                simp [List.dropWhile_cons]
              rw [show (digitChar d :: (ds.map digitChar ++
                  ('.' :: ((f :: fs2).map digitChar ++ rest)))).dropWhile Char.isDigit =
                  '.' :: ((f :: fs2).map digitChar ++ rest) by
                have := hdrop1
                simpa [List.dropWhile_cons] using this]
              simp only [if_pos rfl]
              rw [show ((f :: fs2).map digitChar ++ rest) =
                  digitChar f :: (fs2.map digitChar ++ rest) by simp]
              simp only [digitChar_isDigit f hf, if_true]
              have htakef : (digitChar f :: (fs2.map digitChar ++ rest)).takeWhile
                  Char.isDigit = (f :: fs2).map digitChar := by
                have := takeWhile_append_all ((f :: fs2).map digitChar) rest
                  (map_digitChar_isDigit _ hfsd)
                simpa [htakeRest] using this
              have hdropf : (digitChar f :: (fs2.map digitChar ++ rest)).dropWhile
                  Char.isDigit = rest := by
                have := dropWhile_append_all ((f :: fs2).map digitChar) rest
                  (map_digitChar_isDigit _ hfsd)
                simpa [hdropRest] using this
              rw [htakef, hdropf]
              have htakeD : List.takeWhile Char.isDigit (digitChar d ::
                  (ds.map digitChar ++ '.' :: digitChar f ::
                    (fs2.map digitChar ++ rest))) = (d :: ds).map digitChar := by
                have h0 := takeWhile_append_all ((d :: ds).map digitChar)
                  ('.' :: digitChar f :: (fs2.map digitChar ++ rest)) hdig
                simpa [List.takeWhile_cons] using h0
              rw [htakeD, digitsValN_map _ hipd]
              simp only [fracValQ, digitsValN_map _ hfsd, List.length_map]
              simp [bodyVal]

/-- The number parser on a rendered numeral followed by text that can
start neither a digit run nor a fraction. -/
theorem parseNum_render (n : Numeral) (hn : WFnum n) (rest : List Char)
    (hrest : rest = [] ∨ ∃ c rest2, rest = c :: rest2 ∧ c.isDigit = false ∧ c ≠ '.') :
    parseNum (render n ++ rest) = some (nval n, rest) := by
  obtain ⟨hip, hipd, hfp⟩ := hn
  unfold parseNum
  cases hsg : n.neg with
  | none =>
      cases hipc : n.ip with
      | nil => exact absurd hipc hip
      | cons d ds =>
          have hd : d < 10 := by
            rw [hipc] at hipd
            exact hipd d (List.mem_cons_self d ds)
          have hshape : render n ++ rest =
              digitChar d :: (ds.map digitChar ++ (fracChars n.fp ++ rest)) := by
            simp [render, signChars, hsg, renderBody, hipc, List.append_assoc]
          rw [hshape]
          rw [show splitSign (digitChar d ::
              (ds.map digitChar ++ (fracChars n.fp ++ rest))) =
              ((false : Bool), digitChar d ::
                (ds.map digitChar ++ (fracChars n.fp ++ rest))) by
            simp [splitSign, (digitChar_props d hd).1, (digitChar_props d hd).2.1]]
          rw [show digitChar d :: (ds.map digitChar ++ (fracChars n.fp ++ rest)) =
              renderBody n ++ rest by simp [renderBody, hipc, List.append_assoc]]
          rw [parseNumCore_render false n hip hipd hfp rest hrest]
          simp [nval, hsg]
  | some b =>
      cases b with
      | false =>
          have hshape : render n ++ rest = '+' :: (renderBody n ++ rest) := by
            simp [render, signChars, hsg]
          rw [hshape]
          rw [show splitSign ('+' :: (renderBody n ++ rest)) =
              ((false : Bool), renderBody n ++ rest) by simp [splitSign]]
          rw [parseNumCore_render false n hip hipd hfp rest hrest]
          simp [nval, hsg]
      | true =>
          have hshape : render n ++ rest = '-' :: (renderBody n ++ rest) := by
            simp [render, signChars, hsg]
          rw [hshape]
          rw [show splitSign ('-' :: (renderBody n ++ rest)) =
              ((true : Bool), renderBody n ++ rest) by simp [splitSign]]
          rw [parseNumCore_render true n hip hipd hfp rest hrest]
          simp [nval, hsg]

/-- The separator parser fails when the head cannot start a separator. -/
theorem parseSep_none (c : Char) (h : isSepStart c = false) (t : List Char) :
    parseSep (c :: t) = none := by
  have h1 : ¬ c = '-' := by intro e; rw [e] at h; simp [isSepStart] at h
  have h2 : ¬ c = '–' := by intro e; rw [e] at h; simp [isSepStart] at h
  have h3 : ¬ c = 't' := by intro e; rw [e] at h; simp [isSepStart] at h
  have h4 : ¬ c = 'T' := by intro e; rw [e] at h; simp [isSepStart] at h
  cases t with
  | nil => simp [parseSep, h1, h2]
  | cons o t2 => simp [parseSep, h1, h2, h3, h4]

/-- The rest returned by the number-body parser is a suffix of what remains
after the leading digit run. -/
theorem parseNumCore_rest_suffix (neg : Bool) (l1 : List Char) (v : ℚ)
    (rest : List Char) (h : parseNumCore neg l1 = some (v, rest)) :
    rest <:+ l1.dropWhile Char.isDigit := by
  unfold parseNumCore at h
  cases l1 with
  | nil => exact absurd h (by simp)
  | cons c t =>
      dsimp only at h
      by_cases hc : c.isDigit
      · rw [if_pos hc] at h
        cases hdw : (c :: t).dropWhile Char.isDigit with
        | nil =>
            rw [hdw] at h
            dsimp only at h
            injection h with h
            injection h with _ h2
            rw [← h2]
        | cons c2 r2 =>
            rw [hdw] at h
            dsimp only at h
            by_cases hdot : c2 = '.'
            · rw [if_pos hdot] at h
              cases r2 with
              | nil =>
                  dsimp only at h
                  injection h with h
                  injection h with _ h2
                  rw [← h2]
              | cons d r3 =>
                  dsimp only at h
                  by_cases hd : d.isDigit
                  · rw [if_pos hd] at h
                    injection h with h
                    injection h with _ h2
                    rw [← h2]
                    exact ((List.dropWhile_suffix _).trans
                      (List.suffix_cons c2 (d :: r3)))
                  · rw [if_neg hd] at h
                    injection h with h
                    injection h with _ h2
                    rw [← h2]
            · rw [if_neg hdot] at h
              injection h with h
              injection h with _ h2
              rw [← h2]
      · rw [if_neg hc] at h
        exact absurd h (by simp)

/-- The number-body parser succeeds only when the head is a digit. -/
theorem parseNumCore_head_digit (neg : Bool) (c : Char) (t : List Char)
    (v : ℚ) (rest : List Char)
    (h : parseNumCore neg (c :: t) = some (v, rest)) : c.isDigit = true := by
  by_cases hc : c.isDigit
  · exact hc
  · unfold parseNumCore at h
    dsimp only at h
    rw [if_neg hc] at h
    exact absurd h (by simp)

/-- Every character of the rest returned by the number parser occurs after
the first character of the input. -/
theorem parseNum_rest_mem (l : List Char) (v : ℚ) (rest : List Char)
    (h : parseNum l = some (v, rest)) : ∀ c ∈ rest, c ∈ l.drop 1 := by
  unfold parseNum at h
  cases l with
  | nil =>
      exfalso
      rw [show splitSign ([] : List Char) = ((false : Bool), ([] : List Char))
        from rfl] at h
      exact absurd h (by simp [parseNumCore])
  | cons c0 t =>
      intro c hc
      simp only [List.drop_one, List.tail_cons]
      by_cases hp : c0 = '+'
      · rw [show splitSign (c0 :: t) = ((false : Bool), t) by simp [splitSign, hp]] at h
        have hs := parseNumCore_rest_suffix _ _ _ _ h
        exact ((hs.trans (List.dropWhile_suffix _)).subset) hc
      · by_cases hm : c0 = '-'
        · rw [show splitSign (c0 :: t) = ((true : Bool), t) by
            simp [splitSign, hp, hm]] at h
          have hs := parseNumCore_rest_suffix _ _ _ _ h
          exact ((hs.trans (List.dropWhile_suffix _)).subset) hc
        · rw [show splitSign (c0 :: t) = ((false : Bool), c0 :: t) by
            simp [splitSign, hp, hm]] at h
          have hd := parseNumCore_head_digit _ _ _ _ _ h
          have hs := parseNumCore_rest_suffix _ _ _ _ h
          have hdw : (c0 :: t).dropWhile Char.isDigit = t.dropWhile Char.isDigit := by
            simp [List.dropWhile_cons, hd]
          rw [hdw] at hs
          exact ((hs.trans (List.dropWhile_suffix _)).subset) hc

/-- The range matcher fails when no character after the first can start a
separator. -/
theorem matchRangeAt_none (l : List Char)
    (h : ∀ c ∈ l.drop 1, isSepStart c = false) : matchRangeAt l = none := by
  unfold matchRangeAt
  cases hp : parseNum l with
  | none => rfl
  | some vr =>
      obtain ⟨v, rest⟩ := vr
      dsimp only
      cases hdw : rest.dropWhile pyIsSpace with
      | nil => simp [parseSep]
      | cons c t2 =>
          have hcs : c ∈ rest := (List.dropWhile_suffix _).subset
            (hdw ▸ List.mem_cons_self c t2)
          have hcl : c ∈ l.drop 1 := parseNum_rest_mem l v rest hp c hcs
          simp [parseSep_none c (h c hcl) t2]

/-- The range search fails when no character after the first can start a
separator. -/
theorem searchRange_none : ∀ l : List Char,
    (∀ c ∈ l.drop 1, isSepStart c = false) → searchRange l = none
  | [], _ => rfl
  | c :: t, h => by
      have hm : matchRangeAt (c :: t) = none := matchRangeAt_none (c :: t) h
      have ht : searchRange t = none := searchRange_none t (by
        intro x hx
        exact h x (by
          simp only [List.drop_one, List.tail_cons]
          exact (List.drop_subset 1 t) hx))
      unfold searchRange
      rw [hm, ht]

/-- No character of a rendered numeral body can start a separator. -/
theorem renderBody_not_sep (n : Numeral) (hipd : ∀ d ∈ n.ip, d < 10)
    (hfp : ∀ fs, n.fp = some fs → fs ≠ [] ∧ ∀ d ∈ fs, d < 10) :
    ∀ c ∈ renderBody n, isSepStart c = false := by
  intro c hc
  rcases List.mem_append.mp hc with hm | hm
  · obtain ⟨d, hd, rfl⟩ := List.mem_map.mp hm
    exact (digitChar_props d (hipd d hd)).2.2.2.2
  · cases hfpc : n.fp with
    | none => rw [hfpc] at hm; simp [fracChars] at hm
    | some fs =>
        rw [hfpc] at hm
        simp only [fracChars] at hm
        rcases List.mem_cons.mp hm with rfl | hm2
        · decide
        · obtain ⟨d, hd, rfl⟩ := List.mem_map.mp hm2
          exact (digitChar_props d ((hfp fs hfpc).2 d hd)).2.2.2.2

/-- The range search fails on a plain rendered numeral. -/
theorem searchRange_render_none (n : Numeral) (hn : WFnum n) :
    searchRange (render n) = none := by
  obtain ⟨hip, hipd, hfp⟩ := hn
  refine searchRange_none _ ?_
  intro c hc
  have hbody : ∀ c ∈ renderBody n, isSepStart c = false :=
    renderBody_not_sep n hipd hfp
  cases hsg : n.neg with
  | none =>
      have : render n = renderBody n := by simp [render, signChars, hsg]
      rw [this] at hc
      exact hbody c ((List.drop_subset 1 _) hc)
  | some b =>
      have : render n = (if b then '-' else '+') :: renderBody n := by
        cases b <;> simp [render, signChars, hsg]
      rw [this] at hc
      simp only [List.drop_one, List.tail_cons] at hc
      exact hbody c hc

/-- Dropping from a list whose head fails the predicate is the identity. -/
theorem dropWhile_eq_self_of_head (p : Char → Bool) (l : List Char)
    (h : ∀ c, l.head? = some c → p c = false) : l.dropWhile p = l := by
  cases l with
  | nil => rfl
  | cons c t => simp [List.dropWhile_cons, h c rfl]

/-- Stripping is the identity when neither end is whitespace. -/
theorem pstrip_eq_self (l : List Char)
    (h1 : ∀ c, l.head? = some c → pyIsSpace c = false)
    (h2 : ∀ c, l.getLast? = some c → pyIsSpace c = false) : pstrip l = l := by
  unfold pstrip stripEnd
  rw [dropWhile_eq_self_of_head pyIsSpace l h1]
  rw [dropWhile_eq_self_of_head pyIsSpace l.reverse
    (fun c hc => h2 c (by rwa [List.head?_reverse] at hc))]
  exact List.reverse_reverse l

/-- No character of a rendered numeral is whitespace. -/
theorem render_not_space (n : Numeral) (hipd : ∀ d ∈ n.ip, d < 10)
    (hfp : ∀ fs, n.fp = some fs → fs ≠ [] ∧ ∀ d ∈ fs, d < 10) :
    ∀ c ∈ render n, pyIsSpace c = false := by
  intro c hc
  rcases List.mem_append.mp hc with hm | hm
  · cases hsg : n.neg with
    | none => rw [hsg] at hm; simp [signChars] at hm
    | some b =>
        rw [hsg] at hm
        cases b <;> simp only [signChars] at hm <;>
          rcases List.mem_singleton.mp hm with rfl <;> decide
  · rcases List.mem_append.mp hm with hm2 | hm2
    · obtain ⟨d, hd, rfl⟩ := List.mem_map.mp hm2
      exact (digitChar_props d (hipd d hd)).2.2.2.1
    · cases hfpc : n.fp with
      | none => rw [hfpc] at hm2; simp [fracChars] at hm2
      | some fs =>
          rw [hfpc] at hm2
          simp only [fracChars] at hm2
          rcases List.mem_cons.mp hm2 with rfl | hm3
          · decide
          · obtain ⟨d, hd, rfl⟩ := List.mem_map.mp hm3
            exact (digitChar_props d ((hfp fs hfpc).2 d hd)).2.2.2.1

/-- A rendered numeral is nonempty. -/
theorem render_ne_nil (n : Numeral) (hip : n.ip ≠ []) : render n ≠ [] := by
  intro h
  unfold render renderBody at h
  rcases List.append_eq_nil.mp h with ⟨-, h2⟩
  rcases List.append_eq_nil.mp h2 with ⟨h3, -⟩
  exact hip (List.map_eq_nil_iff.mp h3)

/-- Dropping leading whitespace from a rendered numeral is the identity. -/
theorem dropWhile_space_render (n : Numeral) (hn : WFnum n) :
    (render n).dropWhile pyIsSpace = render n := by
  refine dropWhile_eq_self_of_head _ _ ?_
  intro c hc
  exact render_not_space n hn.2.1 hn.2.2 c (List.mem_of_mem_head? hc)

/-- Unfolding of the range search on a nonempty list. -/
theorem searchRange_cons_eq (l : List Char) (h : l ≠ []) :
    searchRange l = match matchRangeAt l with
      | some ab => some ab
      | none => searchRange l.tail := by
  cases l with
  | nil => exact absurd rfl h
  | cons c t => rfl

/-- The range matcher on a written range: both endpoint values are
recovered. -/
theorem matchRangeAt_range (n1 n2 : Numeral) (sep : RangeSep)
    (h1 : WFnum n1) (h2 : WFnum n2) :
    matchRangeAt (render n1 ++ (sepRender sep ++ render n2)) =
      some (nval n1, nval n2) := by
  have hsep : sepRender sep ++ render n2 = [] ∨
      ∃ c rest2, sepRender sep ++ render n2 = c :: rest2 ∧
        c.isDigit = false ∧ c ≠ '.' := by
    cases sep <;> exact Or.inr ⟨_, _, rfl, by decide, by decide⟩
  have hn2parse : parseNum (render n2) = some (nval n2, []) := by
    have := parseNum_render n2 h2 [] (Or.inl rfl)
    simpa using this
  unfold matchRangeAt
  rw [parseNum_render n1 h1 (sepRender sep ++ render n2) hsep]
  dsimp only
  cases sep with
  | dash =>
      rw [show (sepRender RangeSep.dash ++ render n2) = '-' :: render n2 from rfl]
      rw [show ('-' :: render n2).dropWhile pyIsSpace = '-' :: render n2 by
        simp [List.dropWhile_cons, pyIsSpace]]
      rw [show parseSep ('-' :: render n2) = some (render n2) by simp [parseSep]]
      dsimp only
      rw [dropWhile_space_render n2 h2, hn2parse]
  | endash =>
      rw [show (sepRender RangeSep.endash ++ render n2) = '–' :: render n2 from rfl]
      rw [show ('–' :: render n2).dropWhile pyIsSpace = '–' :: render n2 by
        simp [List.dropWhile_cons, pyIsSpace]]
      rw [show parseSep ('–' :: render n2) = some (render n2) by simp [parseSep]]
      dsimp only
      rw [dropWhile_space_render n2 h2, hn2parse]
  | toWord =>
      rw [show (sepRender RangeSep.toWord ++ render n2) =
        ' ' :: 't' :: 'o' :: ' ' :: render n2 from rfl]
      rw [show (' ' :: 't' :: 'o' :: ' ' :: render n2).dropWhile pyIsSpace =
          't' :: 'o' :: ' ' :: render n2 by
        simp [List.dropWhile_cons, pyIsSpace]]
      rw [show parseSep ('t' :: 'o' :: ' ' :: render n2) =
          some (' ' :: render n2) by simp [parseSep]]
      dsimp only
      rw [show ((' ' :: render n2).dropWhile pyIsSpace) =
          (render n2).dropWhile pyIsSpace by simp [List.dropWhile_cons, pyIsSpace]]
      rw [dropWhile_space_render n2 h2, hn2parse]

/-- The value parser on a written range `a-b`, `a–b` or `a to b`: the
arithmetic mean of the endpoints. -/
theorem parse_closed_rr_range (n1 n2 : Numeral) (sep : RangeSep)
    (h1 : WFnum n1) (h2 : WFnum n2) :
    parse_closed_rr (Val.str (String.mk (render n1 ++ sepRender sep ++ render n2))) =
      PyF.fin ((nval n1 + nval n2) / 2) := by
  have hl : render n1 ++ sepRender sep ++ render n2 =
      render n1 ++ (sepRender sep ++ render n2) := List.append_assoc _ _ _
  obtain ⟨c, t', hct⟩ := List.exists_cons_of_ne_nil (render_ne_nil n1 h1.1)
  have hne : render n1 ++ sepRender sep ++ render n2 ≠ [] := by
    rw [hl, hct]; simp
  have hempty : (render n1 ++ sepRender sep ++ render n2).isEmpty = false := by
    rw [hl, hct]; rfl
  have hstrip : pstrip (render n1 ++ sepRender sep ++ render n2) =
      render n1 ++ sepRender sep ++ render n2 := by
    refine pstrip_eq_self _ ?_ ?_
    · intro x hx
      rw [hl, hct] at hx
      injection hx with hx
      rw [← hx]
      exact render_not_space n1 h1.2.1 h1.2.2 c (hct ▸ List.mem_cons_self c t')
    · intro x hx
      rcases List.eq_nil_or_concat (render n2) with hnil | ⟨L, b, hcat⟩
      · exact absurd hnil (render_ne_nil n2 h2.1)
      · rw [List.getLast?_append] at hx
        rw [hcat] at hx
        rw [show (L.concat b).getLast? = some b by
          simp [List.concat_eq_append, List.getLast?_concat]] at hx
        simp only [Option.or_some] at hx
        injection hx with hx
        rw [← hx]
        refine render_not_space n2 h2.2.1 h2.2.2 b ?_
        rw [hcat, List.concat_eq_append]
        exact List.mem_append.mpr (Or.inr (List.mem_singleton.mpr rfl))
  have hsearch : searchRange (render n1 ++ sepRender sep ++ render n2) =
      some (nval n1, nval n2) := by
    rw [searchRange_cons_eq _ hne, hl, matchRangeAt_range n1 n2 sep h1 h2]
  simp only [parse_closed_rr, pyStr]
  rw [hstrip, hempty]
  rw [if_neg Bool.false_ne_true]
  rw [hsearch]

/-- No character of a rendered numeral body is a plus sign. -/
theorem renderBody_not_plus (n : Numeral) (hipd : ∀ d ∈ n.ip, d < 10)
    (hfp : ∀ fs, n.fp = some fs → fs ≠ [] ∧ ∀ d ∈ fs, d < 10) :
    ∀ c ∈ renderBody n, c ≠ '+' := by
  intro c hc
  rcases List.mem_append.mp hc with hm | hm
  · obtain ⟨d, hd, rfl⟩ := List.mem_map.mp hm
    exact (digitChar_props d (hipd d hd)).1
  · cases hfpc : n.fp with
    | none => rw [hfpc] at hm; simp [fracChars] at hm
    | some fs =>
        rw [hfpc] at hm
        simp only [fracChars] at hm
        rcases List.mem_cons.mp hm with rfl | hm2
        · decide
        · obtain ⟨d, hd, rfl⟩ := List.mem_map.mp hm2
          exact (digitChar_props d ((hfp fs hfpc).2 d hd)).1

/-- Removing plus signs from a rendered numeral keeps an optional minus
sign and the digit body. -/
theorem filter_plus_render (n : Numeral) (hn : WFnum n) :
    (render n).filter (· ≠ '+') =
      (if n.neg = some true then ['-'] else []) ++ renderBody n := by
  have hbody : (renderBody n).filter (· ≠ '+') = renderBody n := by
    rw [List.filter_eq_self]
    intro c hc
    simpa using renderBody_not_plus n hn.2.1 hn.2.2 c hc
  unfold render
  rw [List.filter_append, hbody]
  cases hsg : n.neg with
  | none => simp [signChars]
  | some b => cases b <;> simp [signChars]

/-- The rendered body starts with a digit, so sign splitting leaves it
unchanged. -/
theorem splitSign_renderBody (n : Numeral) (hip : n.ip ≠ [])
    (hipd : ∀ d ∈ n.ip, d < 10) :
    splitSign (renderBody n) = (false, renderBody n) := by
  obtain ⟨sg, ip, fp⟩ := n
  cases ip with
  | nil => exact absurd rfl hip
  | cons d ds =>
      simp only at hipd
      have hd : d < 10 := hipd d (List.mem_cons_self d ds)
      rw [show renderBody ⟨sg, d :: ds, fp⟩ =
          digitChar d :: (ds.map digitChar ++ fracChars fp) by simp [renderBody]]
      simp [splitSign, (digitChar_props d hd).1, (digitChar_props d hd).2.1]

/-- The rendered body starts with a digit, so it has no leading space. -/
theorem dropWhile_space_renderBody (n : Numeral) (hip : n.ip ≠ [])
    (hipd : ∀ d ∈ n.ip, d < 10) :
    (renderBody n).dropWhile pyIsSpace = renderBody n := by
  obtain ⟨sg, ip, fp⟩ := n
  cases ip with
  | nil => exact absurd rfl hip
  | cons d ds =>
      simp only at hipd
      have hd : d < 10 := hipd d (List.mem_cons_self d ds)
      rw [show renderBody ⟨sg, d :: ds, fp⟩ =
          digitChar d :: (ds.map digitChar ++ fracChars fp) by simp [renderBody]]
      simp [List.dropWhile_cons, (digitChar_props d hd).2.2.2.1]

/-- The float mantissa parser on a rendered numeral body consumes it all
and returns the body value. -/
theorem parseMantissa_renderBody (n : Numeral) (hip : n.ip ≠ [])
    (hipd : ∀ d ∈ n.ip, d < 10)
    (hfp : ∀ fs, n.fp = some fs → fs ≠ [] ∧ ∀ d ∈ fs, d < 10) :
    parseMantissa (renderBody n) = some (bodyVal n, []) := by
  obtain ⟨sg, ip, fp⟩ := n
  cases ip with
  | nil => exact absurd rfl hip
  | cons d ds =>
      simp only at hipd hfp ⊢
      have hd : d < 10 := hipd d (List.mem_cons_self d ds)
      have hdig : ∀ c ∈ (d :: ds).map digitChar, c.isDigit = true :=
        map_digitChar_isDigit _ hipd
      have hdnotdot : digitChar d ≠ '.' := (digitChar_props d hd).2.2.1
      cases fp with
      | none =>
          rw [show renderBody ⟨sg, d :: ds, Option.none⟩ =
              digitChar d :: ds.map digitChar by simp [renderBody, fracChars]]
          rw [parseMantissa.eq_def]
          dsimp only
          rw [if_neg hdnotdot]
          simp only [digitChar_isDigit d hd, if_true]
          rw [show (digitChar d :: ds.map digitChar).dropWhile Char.isDigit = [] by
            have := dropWhile_append_all ((d :: ds).map digitChar) [] hdig
            simpa using this]
          rw [show (digitChar d :: ds.map digitChar).takeWhile Char.isDigit =
              (d :: ds).map digitChar by
            have := takeWhile_append_all ((d :: ds).map digitChar) [] hdig
            simpa using this]
          rw [digitsValN_map _ hipd]
          simp [bodyVal]
      | some fs =>
          obtain ⟨hfsne, hfsd⟩ := hfp fs rfl
          cases fs with
          | nil => exact absurd rfl hfsne
          | cons f fs2 =>
              have hfdig : ∀ c ∈ (f :: fs2).map digitChar, c.isDigit = true :=
                map_digitChar_isDigit _ hfsd
              rw [show renderBody ⟨sg, d :: ds, some (f :: fs2)⟩ =
                  digitChar d :: (ds.map digitChar ++
                    ('.' :: (f :: fs2).map digitChar)) by
                simp [renderBody, fracChars]]
              rw [parseMantissa.eq_def]
              dsimp only
              rw [if_neg hdnotdot]
              simp only [digitChar_isDigit d hd, if_true]
              rw [show (digitChar d :: (ds.map digitChar ++
                  ('.' :: (f :: fs2).map digitChar))).dropWhile Char.isDigit =
                  '.' :: (f :: fs2).map digitChar by
                have := dropWhile_append_all ((d :: ds).map digitChar)
                  ('.' :: (f :: fs2).map digitChar) hdig
                simpa [List.dropWhile_cons] using this]
              dsimp only
              rw [if_pos rfl]
              rw [show ((f :: fs2).map digitChar).takeWhile Char.isDigit =
                  (f :: fs2).map digitChar by
                have := takeWhile_append_all ((f :: fs2).map digitChar) [] hfdig
                simpa using this]
              rw [show ((f :: fs2).map digitChar).dropWhile Char.isDigit = [] by
                have := dropWhile_append_all ((f :: fs2).map digitChar) [] hfdig
                simpa using this]
              rw [show (digitChar d :: (ds.map digitChar ++
                  ('.' :: (f :: fs2).map digitChar))).takeWhile Char.isDigit =
                  (d :: ds).map digitChar by
                have := takeWhile_append_all ((d :: ds).map digitChar)
                  ('.' :: (f :: fs2).map digitChar) hdig
                simpa [List.takeWhile_cons] using this]
              rw [digitsValN_map _ hipd]
              simp only [fracValQ, digitsValN_map _ hfsd, List.length_map]
              simp [bodyVal]

/-- The fallback float parse on a plus-stripped rendered numeral yields
the numeral's value. -/
theorem pyFloat_render_filter (n : Numeral) (hn : WFnum n) :
    pyFloat ((render n).filter (· ≠ '+')) = some (nval n) := by
  obtain ⟨hip, hipd, hfp⟩ := hn
  rw [filter_plus_render n ⟨hip, hipd, hfp⟩]
  by_cases hsg : n.neg = some true
  · rw [if_pos hsg]
    rw [show ((['-'] : List Char) ++ renderBody n) = '-' :: renderBody n from rfl]
    simp only [pyFloat]
    rw [show ('-' :: renderBody n).dropWhile pyIsSpace = '-' :: renderBody n by
      simp [List.dropWhile_cons, pyIsSpace]]
    rw [show splitSign ('-' :: renderBody n) = ((true : Bool), renderBody n) by
      simp [splitSign]]
    dsimp only
    rw [parseMantissa_renderBody n hip hipd hfp]
    dsimp only
    rw [show parseExponent ([] : List Char) = some ((0 : ℤ), ([] : List Char))
      from rfl]
    dsimp only
    simp [nval, hsg]
  · rw [if_neg hsg]
    rw [List.nil_append]
    simp only [pyFloat]
    rw [dropWhile_space_renderBody n hip hipd]
    rw [splitSign_renderBody n hip hipd]
    dsimp only
    rw [parseMantissa_renderBody n hip hipd hfp]
    dsimp only
    rw [show parseExponent ([] : List Char) = some ((0 : ℤ), ([] : List Char))
      from rfl]
    dsimp only
    simp [nval, hsg]

/-- The value parser on a plain rendered numeral: the numeral's value,
through the plus-stripping float fallback. -/
theorem parse_closed_rr_plain (n : Numeral) (hn : WFnum n) :
    parse_closed_rr (Val.str (String.mk (render n))) = PyF.fin (nval n) := by
  have hne : render n ≠ [] := render_ne_nil n hn.1
  have hstrip : pstrip (render n) = render n := by
    refine pstrip_eq_self _ ?_ ?_
    · intro c hc
      exact render_not_space n hn.2.1 hn.2.2 c (List.mem_of_mem_head? hc)
    · intro c hc
      have hcr : c ∈ (render n).reverse :=
        List.mem_of_mem_head? (by rw [List.head?_reverse]; exact hc)
      exact render_not_space n hn.2.1 hn.2.2 c (List.mem_reverse.mp hcr)
  have hempty : (render n).isEmpty = false := by
    cases hr : render n with
    | nil => exact absurd hr hne
    | cons c t => rfl
  simp only [parse_closed_rr, pyStr]
  rw [hstrip, hempty, if_neg Bool.false_ne_true]
  rw [searchRange_render_none n hn]
  dsimp only
  rw [pyFloat_render_filter n hn]

/-- A numeral with no fractional part is well formed when its digits are. -/
theorem WFnum_mk_none (sg : Option Bool) (ip : List ℕ) (h1 : ip ≠ [])
    (h2 : ∀ d ∈ ip, d < 10) : WFnum ⟨sg, ip, Option.none⟩ :=
  ⟨h1, h2, fun fs hfs => by simp at hfs⟩

/-- C3: `parse_closed_rr` maps a numeric range written `a-b`, `a–b` or
`a to b` (optional sign prefixes on both endpoints) to the arithmetic mean
`(a+b)/2`; maps a plain signed number string to that number (a leading `+`
is stripped before the float parse); and maps the empty string and
unparsable text to NaN.  In particular `parse_closed_rr "+2-3" = 2.5`,
`parse_closed_rr "-1 to -2" = -1.5`, `parse_closed_rr "3" = 3` and
`parse_closed_rr "" = NaN`. -/
theorem parse_closed_rr_spec :
    (∀ (n1 n2 : Numeral) (sep : RangeSep), WFnum n1 → WFnum n2 →
      parse_closed_rr (Val.str (String.mk
          (render n1 ++ sepRender sep ++ render n2))) =
        PyF.fin ((nval n1 + nval n2) / 2)) ∧
    (∀ n : Numeral, WFnum n →
      parse_closed_rr (Val.str (String.mk (render n))) = PyF.fin (nval n)) ∧
    parse_closed_rr (Val.str "+2-3") = PyF.fin (5 / 2) ∧
    parse_closed_rr (Val.str "-1 to -2") = PyF.fin (-(3 / 2)) ∧
    parse_closed_rr (Val.str "3") = PyF.fin 3 ∧
    parse_closed_rr (Val.str "") = PyF.nan ∧
    parse_closed_rr (Val.str "abc") = PyF.nan := by
  refine ⟨fun n1 n2 sep h1 h2 => parse_closed_rr_range n1 n2 sep h1 h2,
    fun n hn => parse_closed_rr_plain n hn, ?_, ?_, ?_, by decide, by decide⟩
  · have h := parse_closed_rr_range ⟨some false, [2], Option.none⟩
      ⟨Option.none, [3], Option.none⟩ RangeSep.dash
      (WFnum_mk_none _ _ (by decide) (by decide))
      (WFnum_mk_none _ _ (by decide) (by decide))
    rw [show String.mk (render ⟨some false, [2], Option.none⟩ ++
        sepRender RangeSep.dash ++ render ⟨Option.none, [3], Option.none⟩) =
        "+2-3" by decide] at h
    rw [show (nval ⟨some false, [2], Option.none⟩ +
        nval ⟨Option.none, [3], Option.none⟩) / 2 = (5 : ℚ) / 2 by
      norm_num [nval, bodyVal, dval,
        (by decide : (Option.none : Option Bool) ≠ some true)]] at h
    exact h
  · have h := parse_closed_rr_range ⟨some true, [1], Option.none⟩
      ⟨some true, [2], Option.none⟩ RangeSep.toWord
      (WFnum_mk_none _ _ (by decide) (by decide))
      (WFnum_mk_none _ _ (by decide) (by decide))
    rw [show String.mk (render ⟨some true, [1], Option.none⟩ ++
        sepRender RangeSep.toWord ++ render ⟨some true, [2], Option.none⟩) =
        "-1 to -2" by decide] at h
    rw [show (nval ⟨some true, [1], Option.none⟩ +
        nval ⟨some true, [2], Option.none⟩) / 2 = -((3 : ℚ) / 2) by
      norm_num [nval, bodyVal, dval,
        (by decide : (Option.none : Option Bool) ≠ some true)]] at h
    exact h
  · have h := parse_closed_rr_plain ⟨Option.none, [3], Option.none⟩
      (WFnum_mk_none _ _ (by decide) (by decide))
    rw [show String.mk (render ⟨Option.none, [3], Option.none⟩) = "3"
      by decide] at h
    rw [show nval ⟨Option.none, [3], Option.none⟩ = (3 : ℚ) by
      norm_num [nval, bodyVal, dval,
        (by decide : (Option.none : Option Bool) ≠ some true)]] at h
    exact h

/-- Concrete instance of the range clause: `parse_closed_rr "+2.5-3.5" = 3`. -/
theorem parse_closed_rr_spec_witness :
    WFnum ⟨some false, [2], some [5]⟩ ∧ WFnum ⟨Option.none, [3], some [5]⟩ ∧
    parse_closed_rr (Val.str "+2.5-3.5") = PyF.fin 3 := by
  have h1 : WFnum ⟨some false, [2], some [5]⟩ := by
    refine ⟨by decide, by decide, ?_⟩
    intro fs hfs
    rw [show (⟨some false, [2], some [5]⟩ : Numeral).fp = some [5] from rfl] at hfs
    injection hfs with he
    rw [← he]
    exact ⟨by decide, by decide⟩
  have h2 : WFnum ⟨Option.none, [3], some [5]⟩ := by
    refine ⟨by decide, by decide, ?_⟩
    intro fs hfs
    rw [show (⟨Option.none, [3], some [5]⟩ : Numeral).fp = some [5] from rfl] at hfs
    injection hfs with he
    rw [← he]
    exact ⟨by decide, by decide⟩
  refine ⟨h1, h2, ?_⟩
  have h := parse_closed_rr_spec.1 ⟨some false, [2], some [5]⟩
    ⟨Option.none, [3], some [5]⟩ RangeSep.dash h1 h2
  rw [show String.mk (render ⟨some false, [2], some [5]⟩ ++
      sepRender RangeSep.dash ++ render ⟨Option.none, [3], some [5]⟩) =
      "+2.5-3.5" by decide] at h
  rw [show (nval ⟨some false, [2], some [5]⟩ +
      nval ⟨Option.none, [3], some [5]⟩) / 2 = (3 : ℚ) by
    norm_num [nval, bodyVal, dval,
        (by decide : (Option.none : Option Bool) ≠ some true)]] at h
  exact h

/-! ## Idempotence of the load pipeline (claim C9) -/

/-- `pd.to_datetime` coercion fixes already-parsed timestamps. -/
theorem toDatetimeVal_date (y m d : ℕ) :
    toDatetimeVal (Val.date y m d) = Val.date y m d := rfl

/-- `pd.to_numeric(..., errors="coerce")` is idempotent on a cell. -/
theorem pyToNumeric_idem (v : Val) :
    pyToNumeric (pyToNumeric v) = pyToNumeric v := by
  cases v with
  | num q => rfl
  | bool b => cases b <;> rfl
  | str s =>
      simp only [pyToNumeric]
      cases pyFloat s.data with
      | none => rfl
      | some q => rfl
  | none => rfl
  | list l => rfl
  | date y m d => rfl

/-- The Closed-RR parser fixes its own stored output. -/
theorem parse_closed_rr_pyfToVal (f : PyF) :
    parse_closed_rr (pyfToVal f) = f := by
  cases f with
  | nan => rfl
  | fin q => rfl

/-- A successful `mapM` over fallible steps succeeded pointwise. -/
theorem mapM_ok_pointwise {α β : Type} (f : α → Except Unit β) :
    ∀ (l : List α) (l' : List β), l.mapM f = Except.ok l' →
      ∀ x ∈ l', ∃ a ∈ l, f a = Except.ok x
  | [], l', h => by
      simp only [List.mapM_nil, except_pure_eq] at h
      injection h with h
      intro x hx
      rw [← h] at hx
      exact absurd hx (List.not_mem_nil x)
  | a :: l, l', h => by
      rw [List.mapM_cons] at h
      cases hfa : f a with
      | error e => rw [hfa] at h; simp at h
      | ok b =>
          rw [hfa] at h
          simp only [except_ok_bind] at h
          cases hml : l.mapM f with
          | error e => rw [hml] at h; simp at h
          | ok bs =>
              rw [hml] at h
              simp only [except_ok_bind, except_pure_eq] at h
              injection h with h
              intro x hx
              rw [← h] at hx
              rcases List.mem_cons.mp hx with rfl | hx2
              · exact ⟨a, List.mem_cons_self a l, hfa⟩
              · obtain ⟨a2, ha2, hfa2⟩ := mapM_ok_pointwise f l bs hml x hx2
                exact ⟨a2, List.mem_cons_of_mem a ha2, hfa2⟩

/-- `mapM` of a pointwise-fixed fallible step returns the list itself. -/
theorem mapM_ok_of_fixed {α : Type} (f : α → Except Unit α) :
    ∀ l : List α, (∀ x ∈ l, f x = Except.ok x) → l.mapM f = Except.ok l
  | [], _ => rfl
  | a :: l, h => by
      rw [List.mapM_cons, h a (List.mem_cons_self a l),
        mapM_ok_of_fixed f l (fun x hx => h x (List.mem_cons_of_mem a hx))]
      rfl

/-- Decomposition of a successful `load_live_df` run. -/
theorem load_live_df_ok (t u : LTable) (h : load_live_df t = Except.ok u) :
    ∃ rows', t.rows.mapM (rowTransform t) = Except.ok rows' ∧
      u = loadResult t rows' := by
  unfold load_live_df at h
  cases hm : t.rows.mapM (rowTransform t) with
  | error e => rw [hm] at h; simp at h
  | ok rows' =>
      rw [hm] at h
      simp only [except_ok_bind, except_pure_eq] at h
      injection h with h
      exact ⟨rows', rfl, h.symm⟩

/-- Decomposition of a successful per-row transform. -/
theorem rowTransform_ok (t : LTable) (r u : LRow)
    (h : rowTransform t r = Except.ok u) :
    ∃ i m o b, instrumentStep t r = Except.ok i ∧
      modelsStep t r = Except.ok m ∧ outcomeStep t r = Except.ok o ∧
      durationBinStep t r = Except.ok b ∧
      u = transformedRow t r i m o b := by
  unfold rowTransform at h
  cases hi : instrumentStep t r with
  | error e => rw [hi] at h; simp at h
  | ok i =>
    rw [hi] at h
    simp only [except_ok_bind] at h
    cases hm : modelsStep t r with
    | error e => rw [hm] at h; simp at h
    | ok m =>
      rw [hm] at h
      simp only [except_ok_bind] at h
      cases ho : outcomeStep t r with
      | error e => rw [ho] at h; simp at h
      | ok o =>
        rw [ho] at h
        simp only [except_ok_bind] at h
        cases hb : durationBinStep t r with
        | error e => rw [hb] at h; simp at h
        | ok b =>
          rw [hb] at h
          simp only [except_ok_bind, except_pure_eq] at h
          injection h with h
          exact ⟨i, m, o, b, rfl, rfl, rfl, rfl, h.symm⟩

/-- The retention filter reads only the source-column flags. -/
theorem keepRow_congr (t t' : LTable) (hs : sameSourceCols t' t) (r : LRow) :
    keepRow t' r = keepRow t r := by
  obtain ⟨hD, hPair, hSess, hEM, hME, hConf, hRes, hCRR, hPnL, hRat,
    hRisk, hDur, hAcc⟩ := hs
  simp [keepRow, hasDateRow, hasSignalRow, hD, hEM, hRes, hCRR, hPnL]

/-- A transformed row that passes the retention filter is a fixed point of
the per-row transform, for any table with the same source columns. -/
theorem rowTransform_fixed (t t' : LTable) (hs : sameSourceCols t' t)
    (r u : LRow) (h : rowTransform t r = Except.ok u)
    (hk : keepRow t u = true) :
    rowTransform t' u = Except.ok u := by
  obtain ⟨hD, hPair, hSess, hEM, hME, hConf, hRes, hCRR, hPnL, hRat,
    hRisk, hDur, hAcc⟩ := hs
  obtain ⟨i, m, o, b, hi, hm, ho, hb, hu⟩ := rowTransform_ok t r u h
  have hu_date : u.date = dateStep t r := by rw [hu]; rfl
  have hu_pair : u.pair = r.pair := by rw [hu]; rfl
  have hu_session : u.session = r.session := by rw [hu]; rfl
  have hu_entryModel : u.entryModel = r.entryModel := by rw [hu]; rfl
  have hu_multiEntry : u.multiEntry = r.multiEntry := by rw [hu]; rfl
  have hu_confluence : u.confluence = r.confluence := by rw [hu]; rfl
  have hu_result : u.result = r.result := by rw [hu]; rfl
  have hu_crr : u.closedRR = closedRRStep t r := by rw [hu]; rfl
  have hu_pnl : u.pnl = pnlStep t r := by rw [hu]; rfl
  have hu_rating : u.rating = r.rating := by rw [hu]; rfl
  have hu_risk : u.risk = r.risk := by rw [hu]; rfl
  have hu_dur : u.duration = durationStep t r := by rw [hu]; rfl
  have hu_account : u.account = r.account := by rw [hu]; rfl
  have hu_dayName : u.dayName = dayNameStep t r := by rw [hu]; rfl
  have hu_hour : u.hour = hourStep t r := by rw [hu]; rfl
  have hu_instr : u.instrument = i := by rw [hu]; rfl
  have hu_sessionNorm : u.sessionNorm = sessionNormStep t r := by rw [hu]; rfl
  have hu_outcome : u.outcome = Val.str o := by rw [hu]; rfl
  have hu_stars : u.stars = starsStep t r := by rw [hu]; rfl
  have hu_riskPct : u.riskPct = riskPctStep t r := by rw [hu]; rfl
  have hu_bin : u.durationBin = b := by rw [hu]; rfl
  have hu_accGroup : u.accountGroup = accountGroupStep t r := by rw [hu]; rfl
  have hu_models : u.models = m := by rw [hu]; rfl
  have hu_confl : u.confl = conflStep t r := by rw [hu]; rfl
  have hkk := hk
  simp only [keepRow, hasDateRow, Bool.and_eq_true] at hkk
  obtain ⟨⟨hDate, hmatch⟩, -⟩ := hkk
  have hdate : ∃ y mo dd, u.date = Val.date y mo dd := by
    cases hdv : u.date with
    | date y mo dd => exact ⟨y, mo, dd, rfl⟩
    | none => rw [hdv] at hmatch; simp at hmatch
    | num q => rw [hdv] at hmatch; simp at hmatch
    | str s => rw [hdv] at hmatch; simp at hmatch
    | bool bb => rw [hdv] at hmatch; simp at hmatch
    | list l => rw [hdv] at hmatch; simp at hmatch
  obtain ⟨y, mo, dd, hdv⟩ := hdate
  have hsd : dateStep t' u = u.date := by
    simp [dateStep, hD, hDate, hdv, toDatetimeVal_date]
  have hsc : closedRRStep t' u = u.closedRR := by
    by_cases hc : t.hasClosedRR = true
    · have hval : u.closedRR = pyfToVal (parse_closed_rr r.closedRR) := by
        rw [hu_crr]; simp [closedRRStep, hc]
      simp [closedRRStep, hCRR, hc, hval, parse_closed_rr_pyfToVal]
    · simp [closedRRStep, hCRR, hc]
  have hsp : pnlStep t' u = u.pnl := by
    by_cases hc : t.hasPnL = true
    · have hval : u.pnl = pyToNumeric r.pnl := by
        rw [hu_pnl]; simp [pnlStep, hc]
      simp [pnlStep, hPnL, hc, hval, pyToNumeric_idem]
    · simp [pnlStep, hPnL, hc]
  have hsdur : durationStep t' u = u.duration := by
    by_cases hc : t.hasDuration = true
    · have hval : u.duration = pyToNumeric r.duration := by
        rw [hu_dur]; simp [durationStep, hc]
      simp [durationStep, hDur, hc, hval, pyToNumeric_idem]
    · simp [durationStep, hDur, hc]
  have hsdn : dayNameStep t' u = u.dayName := by
    have hval : u.dayName = Val.str (dayNameOf y mo dd) := by
      rw [hu_dayName]
      simp [dayNameStep, hDate, ← hu_date, hdv]
    simp [dayNameStep, hD, hDate, hsd, hdv, hval]
  have hsh : hourStep t' u = u.hour := by
    have hval : u.hour = Val.num 0 := by
      rw [hu_hour]
      simp [hourStep, hDate, ← hu_date, hdv]
    simp [hourStep, hD, hDate, hsd, hdv, hval]
  have hsi : instrumentStep t' u = Except.ok u.instrument := by
    have hcongr : instrumentStep t' u = instrumentStep t r := by
      simp [instrumentStep, hPair, hu_pair]
    rw [hcongr, hi, hu_instr]
  have hss : sessionNormStep t' u = u.sessionNorm := by
    rw [hu_sessionNorm]
    simp [sessionNormStep, hSess, hu_session]
  have hsm : modelsStep t' u = Except.ok u.models := by
    have hcongr : modelsStep t' u = modelsStep t r := by
      simp [modelsStep, hME, hEM, hu_entryModel, hu_multiEntry]
    rw [hcongr, hm, hu_models]
  have hso : outcomeStep t' u = Except.ok o := by
    have hcongr : outcomeStep t' u = outcomeStep t r := by
      simp only [outcomeStep]
      rw [hRes, hCRR, hPnL, hu_result, hsc, hu_crr, hsp, hu_pnl]
    rw [hcongr, ho]
  have hst : starsStep t' u = u.stars := by
    by_cases hc : t.hasRating = true
    · rw [hu_stars]
      simp [starsStep, hRat, hc, hu_rating]
    · simp [starsStep, hRat, hc]
  have hsr : riskPctStep t' u = u.riskPct := by
    by_cases hc : t.hasRisk = true
    · rw [hu_riskPct]
      simp [riskPctStep, hRisk, hc, hu_risk]
    · simp [riskPctStep, hRisk, hc]
  have hsb : durationBinStep t' u = Except.ok u.durationBin := by
    by_cases hc : t.hasDuration = true
    · have harg : durationStep t' u = durationStep t r := by rw [hsdur, hu_dur]
      have hb2 : build_duration_bin (durationStep t r) = Except.ok b := by
        rw [← hb]; simp [durationBinStep, hc]
      simp [durationBinStep, hDur, hc, harg, hb2, hu_bin]
    · simp [durationBinStep, hDur, hc, hu_bin]
  have hsa : accountGroupStep t' u = u.accountGroup := by
    by_cases hc : t.hasAccount = true
    · rw [hu_accGroup]
      simp [accountGroupStep, hAcc, hc, hu_account]
    · simp [accountGroupStep, hAcc, hc]
  have hsco : conflStep t' u = u.confl := by
    rw [hu_confl]
    simp [conflStep, hConf, hu_confluence]
  unfold rowTransform
  rw [hsi]
  simp only [except_ok_bind]
  rw [hsm]
  simp only [except_ok_bind]
  rw [hso]
  simp only [except_ok_bind]
  rw [hsb]
  simp only [except_ok_bind, except_pure_eq]
  rw [hsd, hsc, hsp, hsdur, hsdn, hsh, hss, hst, hsr, hsa, hsco, ← hu_outcome]

/-- C9: the load/normalization pipeline is idempotent (and, being a pure
function of its input, deterministic): whenever `load_live_df` succeeds on
a raw table, running it again on the produced canonical table succeeds and
returns that table unchanged — every derived column (instrument, session,
Closed RR, outcome, day name, hour, stars, risk percent, duration bin,
account group, model and confluence lists) and the retention filter fix
the canonical rows.  Aggregates recomputed from the equal table are
therefore also equal. -/
theorem load_idempotent_spec (t u : LTable)
    (h : load_live_df t = Except.ok u) :
    load_live_df u = Except.ok u := by
  obtain ⟨rows', hmap, hu⟩ := load_live_df_ok t u h
  have hs : sameSourceCols u t := by
    unfold sameSourceCols
    rw [hu]
    exact ⟨rfl, rfl, rfl, rfl, rfl, rfl, rfl, rfl, rfl, rfl, rfl, rfl, rfl⟩
  have hrows : u.rows = rows'.filter (keepRow t) := by rw [hu]; rfl
  have hfix : ∀ x ∈ u.rows, rowTransform u x = Except.ok x := by
    intro x hx
    rw [hrows] at hx
    have hxmem : x ∈ rows' := List.mem_of_mem_filter hx
    have hxkeep : keepRow t x = true := List.of_mem_filter hx
    obtain ⟨a, ha, hfa⟩ := mapM_ok_pointwise (rowTransform t) t.rows rows' hmap x hxmem
    exact rowTransform_fixed t u hs a x hfa hxkeep
  have hkeep : ∀ x ∈ u.rows, keepRow u x = true := by
    intro x hx
    rw [keepRow_congr t u hs x]
    rw [hrows] at hx
    exact List.of_mem_filter hx
  unfold load_live_df
  rw [mapM_ok_of_fixed (rowTransform u) u.rows hfix]
  simp only [except_ok_bind, except_pure_eq]
  rw [List.filter_eq_self.mpr hkeep]
  rw [hu]
  rfl

/-- Concrete instance: loading the one-row `tblIdem` succeeds, and
reloading its canonical result returns it unchanged. -/
theorem load_idempotent_spec_witness :
    load_live_df tblIdem = Except.ok uIdem ∧
    load_live_df uIdem = Except.ok uIdem :=
  ⟨by decide, load_idempotent_spec tblIdem uIdem (by decide)⟩
